import Mathlib

/-!
Verification of the stream interconnect library (misoc/interconnect/stream.py).

Each hardware module is shallowly embedded as an executable synchronous state
machine: a state structure (the module's registers, reset values as in the
source), a combinational-output function of (state, cycle inputs), and a step
function giving the registers' values after the clock edge.  Payload buses are
modelled as natural numbers (raw bits); the wide data register of the width
converters is modelled as its list of `ratio` sub-word slots, which is the
bit-packed register flattened slot-wise (slice assignment and slice read of
slot `n` become `List.set n` / `getD n`, with the wire-width truncation
`% 2 ^ width` retained).
-/

namespace Misoc

/-! ### Endpoint description (`EndpointDescription.get_full_layout`) -/

/-- Reserved control-field names rejected by `get_full_layout`
(stream.py line 21). -/
def reservedNames : List String :=
  ["stb", "ack", "payload", "last", "eop", "description"]

/-- One entry of the full layout returned by `get_full_layout`: either a
control field (name, width) or the nested payload sub-layout.  Payload
sub-layouts are modelled at the granularity the name checks observe:
a list of (field name, width) pairs. -/
inductive LayoutField where
  | ctrl : String → Nat → LayoutField
  | payloadSub : List (String × Nat) → LayoutField
deriving Repr, DecidableEq

/-- The validation loop of `get_full_layout` (stream.py lines 22-28): walk the
payload layout, tracking the set of already-attributed names, raising on a
duplicate or on a reserved name. -/
def checkFields : List (String × Nat) → List String → Except String Unit
  | [], _ => .ok ()
  | f :: fs, attributed =>
    if f.1 ∈ attributed then
      .error (f.1 ++ " already attributed in payload layout")
    else if f.1 ∈ reservedNames then
      .error (f.1 ++ " cannot be used in endpoint layout")
    else
      checkFields fs (f.1 :: attributed)

/-- `EndpointDescription.get_full_layout` (stream.py lines 20-37): validate the
payload layout, then return the full layout with the four control fields and
the nested payload. -/
def get_full_layout (payload_layout : List (String × Nat)) :
    Except String (List LayoutField) :=
  match checkFields payload_layout [] with
  | .error e => .error e
  | .ok () =>
    .ok [.ctrl "stb" 1, .ctrl "ack" 1, .ctrl "last" 1, .ctrl "eop" 1,
         .payloadSub payload_layout]

/-- A construction raised an error (Python `raise ValueError`). -/
def raisesError {α : Type} : Except String α → Bool
  | .error _ => true
  | .ok _ => false

/-! ### Converter specialization (`_get_converter_ratio`) -/

inductive ConverterKind where
  | down | up | identity
deriving Repr, DecidableEq

/-- `_get_converter_ratio` (stream.py lines 355-370): select the specialized
converter class and the integer ratio, raising when the larger width is not a
multiple of the smaller. -/
def get_converter_ratio (nbits_from nbits_to : Nat) :
    Except String (ConverterKind × Nat) :=
  if nbits_from > nbits_to then
    if nbits_from % nbits_to ≠ 0 then .error "Ratio must be an int"
    else .ok (.down, nbits_from / nbits_to)
  else if nbits_from < nbits_to then
    if nbits_to % nbits_from ≠ 0 then .error "Ratio must be an int"
    else .ok (.up, nbits_to / nbits_from)
  else
    .ok (.identity, 1)

/-! ### Buffer (stream.py lines 436-448)

The output register holds the four forwarded fields (`stb`, `last`, `eop`,
`payload`); it is loaded from the sink when `source.ack` holds, otherwise it
keeps its value.  `sink.ack` is combinationally `source.ack`. -/

structure BufReg where
  stb : Bool
  last : Bool
  eop : Bool
  payload : Nat
deriving Repr, DecidableEq

structure BufIn where
  sinkStb : Bool
  sinkLast : Bool
  sinkEop : Bool
  sinkPayload : Nat
  sourceAck : Bool
deriving Repr, DecidableEq

/-- Combinational `sink.ack` of `Buffer` (stream.py line 448). -/
def bufSinkAck (i : BufIn) : Bool := i.sourceAck

/-- Clock-edge update of `Buffer`'s output register (stream.py lines 443-446):
`If(self.source.ack, self.sink.connect(self.source, omit=("ack",)))`. -/
def bufStep (s : BufReg) (i : BufIn) : BufReg :=
  if i.sourceAck then ⟨i.sinkStb, i.sinkLast, i.sinkEop, i.sinkPayload⟩ else s

/-- Run `Buffer` over a list of cycle inputs, returning the final register. -/
def bufSteps (s : BufReg) : List BufIn → BufReg
  | [] => s
  | i :: is => bufSteps (bufStep s i) is

/-! ## Claims C6, C10, C7, C9 -/

/-- `checkFields` succeeds only on layouts whose names are duplicate-free,
avoid every reserved name, and avoid every already-attributed name. -/
theorem checkFields_ok_sound (fs : List (String × Nat)) :
    ∀ attributed, checkFields fs attributed = .ok () →
      (fs.map Prod.fst).Nodup ∧
      ∀ n ∈ fs.map Prod.fst, n ∉ reservedNames ∧ n ∉ attributed := by
  induction fs with
  | nil => intro attributed _; simp
  | cons f fs ih =>
    intro attributed h
    simp only [checkFields] at h
    by_cases h1 : f.1 ∈ attributed
    · simp [h1] at h
    · by_cases h2 : f.1 ∈ reservedNames
      · simp [h1, h2] at h
      · simp only [h1, h2, if_false, if_true, ite_false, ite_true] at h
        rcases ih _ h with ⟨hnodup, hmem⟩
        refine ⟨?_, ?_⟩
        · simp only [List.map_cons, List.nodup_cons]
          exact ⟨fun hc => (hmem _ hc).2 (by simp), hnodup⟩
        · intro n hn
          simp only [List.map_cons, List.mem_cons] at hn
          rcases hn with rfl | hn
          · exact ⟨h2, h1⟩
          · have := hmem n hn
            exact ⟨this.1, fun hc => this.2 (by simp [hc])⟩

/-- C6: Endpoint construction from a payload layout raises at construction
time whenever the layout contains a duplicate field name, and whenever it
contains a field whose name collides with any of the reserved control names
`stb` (valid), `ack` (ready), `payload`, `last`, `eop`. -/
theorem c6_endpoint_layout_errors (l : List (String × Nat)) :
    (¬ (l.map Prod.fst).Nodup → raisesError (get_full_layout l) = true) ∧
    (∀ name, name ∈ ["stb", "ack", "payload", "last", "eop"] →
      name ∈ l.map Prod.fst → raisesError (get_full_layout l) = true) := by
  constructor
  · intro hdup
    unfold get_full_layout
    cases hc : checkFields l [] with
    | error e => simp [raisesError]
    | ok u =>
      cases u
      exact absurd (checkFields_ok_sound l [] hc).1 hdup
  · intro name hres hmem
    unfold get_full_layout
    cases hc : checkFields l [] with
    | error e => simp [raisesError]
    | ok u =>
      cases u
      have := ((checkFields_ok_sound l [] hc).2 name hmem).1
      exact absurd (by fin_cases hres <;> simp [reservedNames]) this

/-- Witness for C6 at concrete layouts: a duplicated name and the reserved
name `ack` are both rejected. -/
theorem c6_endpoint_layout_errors_witness :
    raisesError (get_full_layout [("a", 8), ("a", 4)]) = true ∧
    raisesError (get_full_layout [("ack", 8)]) = true := by
  constructor
  · exact (c6_endpoint_layout_errors [("a", 8), ("a", 4)]).1 (by decide)
  · exact (c6_endpoint_layout_errors [("ack", 8)]).2 "ack" (by decide) (by decide)

/-- C10: `"description"` is also treated as a reserved name by
`get_full_layout` — any payload layout containing a field named
`"description"` is rejected at construction time. -/
theorem c10_description_reserved (l : List (String × Nat)) :
    "description" ∈ l.map Prod.fst → raisesError (get_full_layout l) = true := by
  intro hmem
  unfold get_full_layout
  cases hc : checkFields l [] with
  | error e => simp [raisesError]
  | ok u =>
    cases u
    have := ((checkFields_ok_sound l [] hc).2 "description" hmem).1
    exact absurd (by simp [reservedNames]) this

/-- Witness for C10 at a concrete layout. -/
theorem c10_description_reserved_witness :
    raisesError (get_full_layout [("data", 32), ("description", 1)]) = true :=
  c10_description_reserved [("data", 32), ("description", 1)] (by decide)

/-- C7: converter construction errors exactly when the widths differ and the
larger is not an exact multiple of the smaller; otherwise it selects the
down-converter with ratio `nbits_from / nbits_to` when narrowing, the
up-converter with ratio `nbits_to / nbits_from` when widening, and the
identity converter with ratio 1 when the widths agree. -/
theorem c7_converter_ratio (nf nt : Nat) :
    (raisesError (get_converter_ratio nf nt) = true ↔
      nf ≠ nt ∧ ¬ (min nf nt ∣ max nf nt)) ∧
    (nt < nf → nt ∣ nf →
      get_converter_ratio nf nt = .ok (.down, nf / nt)) ∧
    (nf < nt → nf ∣ nt →
      get_converter_ratio nf nt = .ok (.up, nt / nf)) ∧
    (nf = nt → get_converter_ratio nf nt = .ok (.identity, 1)) := by
  refine ⟨?_, ?_, ?_, ?_⟩
  · rcases lt_trichotomy nf nt with h | h | h
    · have h1 : ¬ nf > nt := by omega
      constructor
      · intro herr
        unfold get_converter_ratio at herr
        simp only [h1, if_false, ite_false, h, if_true, ite_true] at herr
        by_cases hm : nt % nf = 0
        · simp [hm, raisesError] at herr
        · refine ⟨by omega, ?_⟩
          rw [min_eq_left (le_of_lt h), max_eq_right (le_of_lt h)]
          exact fun hdvd => hm (Nat.mod_eq_zero_of_dvd hdvd)
      · rintro ⟨hne, hnd⟩
        rw [min_eq_left (le_of_lt h), max_eq_right (le_of_lt h)] at hnd
        have hm : nt % nf ≠ 0 := fun hc => hnd (Nat.dvd_of_mod_eq_zero hc)
        unfold get_converter_ratio
        simp [h1, h, hm, raisesError]
    · subst h
      unfold get_converter_ratio
      simp [raisesError]
    · have h1 : nf > nt := h
      constructor
      · intro herr
        unfold get_converter_ratio at herr
        simp only [h1, if_true, ite_true] at herr
        by_cases hm : nf % nt = 0
        · simp [hm, raisesError] at herr
        · refine ⟨by omega, ?_⟩
          rw [min_eq_right (le_of_lt h), max_eq_left (le_of_lt h)]
          exact fun hdvd => hm (Nat.mod_eq_zero_of_dvd hdvd)
      · rintro ⟨hne, hnd⟩
        rw [min_eq_right (le_of_lt h), max_eq_left (le_of_lt h)] at hnd
        have hm : nf % nt ≠ 0 := fun hc => hnd (Nat.dvd_of_mod_eq_zero hc)
        unfold get_converter_ratio
        simp [h1, hm, raisesError]
  · intro hlt hdvd
    have h1 : nf > nt := hlt
    have hm : nf % nt = 0 := Nat.mod_eq_zero_of_dvd hdvd
    unfold get_converter_ratio
    simp [h1, hm]
  · intro hlt hdvd
    have h1 : ¬ nf > nt := by omega
    have hm : nt % nf = 0 := Nat.mod_eq_zero_of_dvd hdvd
    unfold get_converter_ratio
    simp [h1, hlt, hm]
  · intro heq
    subst heq
    unfold get_converter_ratio
    simp

/-- Witness for C7 at concrete widths: 32→8 narrows with ratio 4, 8→32 widens
with ratio 4, 16→16 is the identity, and 32→12 errors. -/
theorem c7_converter_ratio_witness :
    get_converter_ratio 32 8 = .ok (.down, 4) ∧
    get_converter_ratio 8 32 = .ok (.up, 4) ∧
    get_converter_ratio 16 16 = .ok (.identity, 1) ∧
    raisesError (get_converter_ratio 32 12) = true := by
  refine ⟨?_, ?_, ?_, ?_⟩
  · exact (c7_converter_ratio 32 8).2.1 (by decide) (by decide)
  · exact (c7_converter_ratio 8 32).2.2.1 (by decide) (by decide)
  · exact (c7_converter_ratio 16 16).2.2.2 rfl
  · exact (c7_converter_ratio 32 12).1.mpr (by decide)

/-- C9: in the `Buffer` stage, `sink.ack` is combinationally identical to
`source.ack`; when `source.ack` is low the output register is unchanged; and
after one cycle with `source.ack` high followed by any number of cycles with
`source.ack` low, the register (hence the presented output) still holds the
sink values latched in that last ready cycle. -/
theorem c9_buffer (s : BufReg) (i : BufIn) (stalls : List BufIn) :
    (bufSinkAck i = i.sourceAck) ∧
    (i.sourceAck = false → bufStep s i = s) ∧
    (i.sourceAck = true → (∀ j ∈ stalls, j.sourceAck = false) →
      bufSteps (bufStep s i) stalls =
        ⟨i.sinkStb, i.sinkLast, i.sinkEop, i.sinkPayload⟩) := by
  refine ⟨rfl, ?_, ?_⟩
  · intro h; simp [bufStep, h]
  · intro hack hstalls
    have hlatch : bufStep s i = ⟨i.sinkStb, i.sinkLast, i.sinkEop, i.sinkPayload⟩ := by
      simp [bufStep, hack]
    rw [hlatch]
    clear hlatch
    induction stalls with
    | nil => simp [bufSteps]
    | cons j js ih =>
      have hj : j.sourceAck = false := hstalls j (by simp)
      simp only [bufSteps, bufStep, hj, Bool.false_eq_true, if_false]
      exact ih (fun k hk => hstalls k (by simp [hk]))

/-- Witness for C9 at a concrete run: latch `(true, false, true, 42)` then
stall for two cycles. -/
theorem c9_buffer_witness :
    bufSteps (bufStep ⟨false, false, false, 0⟩ ⟨true, false, true, 42, true⟩)
      [⟨false, true, false, 7, false⟩, ⟨true, true, true, 9, false⟩] =
      ⟨true, false, true, 42⟩ :=
  (c9_buffer ⟨false, false, false, 0⟩ ⟨true, false, true, 42, true⟩
    [⟨false, true, false, 7, false⟩, ⟨true, true, true, 9, false⟩]).2.2
    rfl (by intro j hj; fin_cases hj <;> rfl)

/-! ### The raw FIFO storage primitive

Modelled from the spec: the single-width FIFO storage primitive
(`migen.genlib.fifo`, an external collaborator consumed as an abstract
interface per the spec's scope section) is a fixed-capacity queue with
combinational `writable` (occupancy below capacity), `readable` (occupancy
nonzero), fall-through `dout` (the oldest entry), watermark flags derived
from occupancy, and clock-edge push on `we & writable` / pop on
`re & readable`.  An entry is the (payload raw bits, eop) pair the wrapper
stores (stream.py line 60). -/

/-- One stored word of the wrapped FIFO: (payload raw bits, eop bit). -/
abbrev FifoEntry := Nat × Bool

/-- Modelled from the spec: `writable` — occupancy is below capacity. -/
def fifoWritable (depth : Nat) (q : List FifoEntry) : Bool :=
  decide (q.length < depth)

/-- Modelled from the spec: `readable` — occupancy is nonzero. -/
def fifoReadable (q : List FifoEntry) : Bool := !q.isEmpty

/-- Modelled from the spec: fall-through `dout` — the oldest entry. -/
def fifoDout (q : List FifoEntry) : FifoEntry := q.headD (0, false)

/-- Modelled from the spec: `almost_full` — occupancy has reached the
high-watermark threshold. -/
def almost_full (hi_wm : Nat) (q : List FifoEntry) : Bool :=
  decide (hi_wm ≤ q.length)

/-- Modelled from the spec: `almost_empty` — occupancy is below the
low-watermark threshold. -/
def almost_empty (lo_wm : Nat) (q : List FifoEntry) : Bool :=
  decide (q.length < lo_wm)

/-- Modelled from the spec: clock-edge update of the queue — pop the oldest
entry on `re & readable`, append `din` on `we & writable` (both flags read
the pre-edge occupancy). -/
def fifoStep (depth : Nat) (q : List FifoEntry) (we : Bool) (din : FifoEntry)
    (re : Bool) : List FifoEntry :=
  let popped := if re && fifoReadable q then q.tail else q
  if we && fifoWritable depth q then popped ++ [din] else popped

/-! ### `_FIFOWrapper` without watermarks (stream.py lines 52-86)

With `hi_wm` and `lo_wm` both absent only the base wiring (lines 76-86) is
generated; the module state is the queue alone. -/

structure PlainIn where
  stb : Bool
  eop : Bool
  payload : Nat
  sourceAck : Bool
deriving Repr, DecidableEq

structure PlainOut where
  sinkAck : Bool
  fifoWe : Bool
  sourceStb : Bool
  sourceEop : Bool
  sourcePayload : Nat
  fifoRe : Bool
deriving Repr, DecidableEq

/-- Combinational wiring of the watermark-free `_FIFOWrapper`
(stream.py lines 76-86). -/
def plainComb (depth : Nat) (q : List FifoEntry) (i : PlainIn) : PlainOut :=
  { sinkAck := fifoWritable depth q
    fifoWe := i.stb
    sourceStb := fifoReadable q
    sourceEop := (fifoDout q).2
    sourcePayload := (fifoDout q).1
    fifoRe := i.sourceAck }

/-- Clock-edge update of the watermark-free `_FIFOWrapper`: only the queue
advances, driven by the wiring of `plainComb`. -/
def plainStep (depth : Nat) (q : List FifoEntry) (i : PlainIn) : List FifoEntry :=
  fifoStep depth q (plainComb depth q i).fifoWe (i.payload, i.eop)
    (plainComb depth q i).fifoRe

/-! ### `_FIFOWrapper` with a low watermark (stream.py lines 162-189)

The later combinational assignments override the base wiring (migen
semantics): `fifo.we = sink.stb & sink.ack` and
`sink.ack = writable & (almost_empty | recv_activated)`.  The burst state is
the single register `recv_activated`. -/

structure LoIn where
  stb : Bool
  last : Bool
  eop : Bool
  payload : Nat
  sourceAck : Bool
deriving Repr, DecidableEq

structure LoOut where
  sinkAck : Bool
  fifoWe : Bool
  sourceStb : Bool
  sourceEop : Bool
  sourcePayload : Nat
  fifoRe : Bool
deriving Repr, DecidableEq

structure LoState where
  q : List FifoEntry
  recv_activated : Bool
deriving Repr, DecidableEq

/-- Combinational wiring of the low-watermark `_FIFOWrapper`
(lines 76-86 with the overrides of lines 168-180). -/
def loComb (lo_wm depth : Nat) (s : LoState) (i : LoIn) : LoOut :=
  let sinkAck := fifoWritable depth s.q &&
    (almost_empty lo_wm s.q || s.recv_activated)
  { sinkAck := sinkAck
    fifoWe := i.stb && sinkAck
    sourceStb := fifoReadable s.q
    sourceEop := (fifoDout s.q).2
    sourcePayload := (fifoDout s.q).1
    fifoRe := i.sourceAck }

/-- Clock-edge update of the low-watermark `_FIFOWrapper`
(lines 182-189 plus the queue): `do_write = fifo.we & writable`;
`recv_activated` enters the accepting state when the queue is almost empty
unless this very write is a 1-word burst (`eop` on the accepted write), and
leaves it on an accepted write carrying `last | eop`. -/
def loStep (lo_wm depth : Nat) (s : LoState) (i : LoIn) : LoState :=
  let o := loComb lo_wm depth s i
  let do_write := o.fifoWe && fifoWritable depth s.q
  { q := fifoStep depth s.q o.fifoWe (i.payload, i.eop) o.fifoRe
    recv_activated :=
      if !s.recv_activated then
        almost_empty lo_wm s.q && !(do_write && i.eop)
      else if s.recv_activated && (do_write && (i.last || i.eop)) then
        false
      else
        s.recv_activated }

/-! ## Claims C8 and C2 -/

/-- C8: without watermark arguments, the FIFO wrapper is pure elastic
buffering — `sink.ack` is the queue's `writable`, write enable is `sink.stb`,
`source.stb` is the queue's `readable`, read enable is `source.ack`, and the
only state advanced by a cycle is the queue itself (pop on an accepted read,
push on an accepted write). -/
theorem c8_plain_elastic (depth : Nat) (q : List FifoEntry) (i : PlainIn) :
    (plainComb depth q i).sinkAck = fifoWritable depth q ∧
    (plainComb depth q i).fifoWe = i.stb ∧
    (plainComb depth q i).sourceStb = fifoReadable q ∧
    (plainComb depth q i).fifoRe = i.sourceAck ∧
    plainStep depth q i =
      fifoStep depth q i.stb (i.payload, i.eop) i.sourceAck :=
  ⟨rfl, rfl, rfl, rfl, rfl⟩

/-- C2: in the low-watermark FIFO wrapper, `sink.ack` holds exactly when the
queue is writable and (`almost_empty` or `recv_activated`) — hence in every
reachable state it is asserted only under that condition; an accepted write
with `eop` while not yet activated never sets `recv_activated`; and once
`recv_activated` is set it stays set after a cycle exactly when that cycle
has no accepted write carrying `last` or `eop`, and is cleared by one. -/
theorem c2_lo_watermark (lo_wm depth : Nat) (s : LoState) (i : LoIn) :
    ((loComb lo_wm depth s i).sinkAck =
      (fifoWritable depth s.q && (almost_empty lo_wm s.q || s.recv_activated))) ∧
    (s.recv_activated = false →
      ((loComb lo_wm depth s i).fifoWe && fifoWritable depth s.q) = true →
      i.eop = true →
      (loStep lo_wm depth s i).recv_activated = false) ∧
    (s.recv_activated = true →
      (loStep lo_wm depth s i).recv_activated =
        !(((loComb lo_wm depth s i).fifoWe && fifoWritable depth s.q) &&
          (i.last || i.eop))) := by
  refine ⟨rfl, ?_, ?_⟩
  · intro hact hdw heop
    simp only [loStep, hact, heop]
    simp only [loComb] at hdw ⊢
    simp [hdw]
  · intro hact
    simp only [loStep, hact]
    cases hdw : ((loComb lo_wm depth s i).fifoWe && fifoWritable depth s.q) with
    | false =>
      simp only [loComb] at hdw ⊢
      simp [hdw]
    | true =>
      simp only [loComb] at hdw ⊢
      cases hle : (i.last || i.eop) <;> simp [hdw, hle]

/-- Witness for C2 at a concrete state and input: a near-empty queue, a
single accepted `eop` write — `recv_activated` stays clear. -/
theorem c2_lo_watermark_witness :
    (loComb 2 4 ⟨[], false⟩ ⟨true, false, true, 5, false⟩).sinkAck = true ∧
    (loStep 2 4 ⟨[], false⟩ ⟨true, false, true, 5, false⟩).recv_activated = false ∧
    (loStep 2 4 ⟨[(1, false)], true⟩ ⟨true, true, false, 6, false⟩).recv_activated
      = false := by
  refine ⟨by decide, ?_, ?_⟩
  · exact (c2_lo_watermark 2 4 ⟨[], false⟩ ⟨true, false, true, 5, false⟩).2.1
      rfl (by decide) rfl
  · have h := (c2_lo_watermark 2 4 ⟨[(1, false)], true⟩
      ⟨true, true, false, 6, false⟩).2.2 rfl
    rw [h]
    decide

/-! ### `_FIFOWrapper` with a high watermark (stream.py lines 100-155)

The later combinational assignments override the base wiring:
`fifo.re = source.stb & source.ack`, and `source.stb`/`source.last` come from
the burst control.  The burst state is `transfer_count` (reset `hi_wm - 1`),
`activated` and `eop_count`. -/


structure HiState where
  q : List FifoEntry
  transfer_count : Nat
  activated : Bool
  eop_count : Nat
deriving Repr, DecidableEq

structure HiIn where
  stb : Bool
  eop : Bool
  payload : Nat
  sourceAck : Bool
deriving Repr, DecidableEq

structure HiOut where
  sinkAck : Bool
  sourceStb : Bool
  sourceLast : Bool
  sourceEop : Bool
  sourcePayload : Nat
deriving Repr, DecidableEq

attribute [ext] HiState HiOut

/-- Combinational wiring of the high-watermark `_FIFOWrapper`
(lines 76-86 with the overrides of lines 122-147):
`source.last = (transfer_count == 0) | fifo_out.eop` and
`source.stb = readable & (almost_full | activated)`. -/
def hiComb (hi_wm depth : Nat) (s : HiState) (i : HiIn) : HiOut :=
  { sinkAck := fifoWritable depth s.q
    sourceStb := fifoReadable s.q && (almost_full hi_wm s.q || s.activated)
    sourceLast := (s.transfer_count == 0) || (fifoDout s.q).2
    sourceEop := (fifoDout s.q).2
    sourcePayload := (fifoDout s.q).1 }

/-- `do_write = fifo.we & fifo.writable` with `fifo.we = sink.stb`
(lines 78 and 126). -/
def hiDoWrite (depth : Nat) (s : HiState) (i : HiIn) : Bool :=
  i.stb && fifoWritable depth s.q

/-- `do_read = fifo.re & fifo.readable` with the override
`fifo.re = source.stb & source.ack` (lines 124 and 127). -/
def hiDoRead (hi_wm depth : Nat) (s : HiState) (i : HiIn) : Bool :=
  ((hiComb hi_wm depth s i).sourceStb && i.sourceAck) && fifoReadable s.q

/-- `eop_count_next` (lines 130-138): count a newly written packet boundary
unless one is drained in the same cycle, and count down a drained one. -/
def hiEopCountNext (hi_wm depth : Nat) (s : HiState) (i : HiIn) : Nat :=
  if i.eop && hiDoWrite depth s i then
    if !((fifoDout s.q).2 && hiDoRead hi_wm depth s i) then s.eop_count + 1
    else s.eop_count
  else if (fifoDout s.q).2 && hiDoRead hi_wm depth s i then s.eop_count - 1
  else s.eop_count

/-- Clock-edge update of the high-watermark `_FIFOWrapper` (lines 113-155):
`transfer_count` reloads to `hi_wm - 1` on a read that ends the burst and
decrements on any other read; `activated` latches on `almost_full` or an
accepted `eop` write, and drops at burst end unless a buffered packet
boundary is pending (`has_pending_eop = eop_count_next != 0`). -/
def hiStep (hi_wm depth : Nat) (s : HiState) (i : HiIn) : HiState :=
  { q := fifoStep depth s.q i.stb (i.payload, i.eop)
      ((hiComb hi_wm depth s i).sourceStb && i.sourceAck)
    transfer_count :=
      if hiDoRead hi_wm depth s i && (hiComb hi_wm depth s i).sourceLast then
        hi_wm - 1
      else if hiDoRead hi_wm depth s i then s.transfer_count - 1
      else s.transfer_count
    activated :=
      if !s.activated then
        almost_full hi_wm s.q || (i.eop && hiDoWrite depth s i)
      else if hiDoRead hi_wm depth s i && (hiComb hi_wm depth s i).sourceLast then
        hiEopCountNext hi_wm depth s i != 0
      else s.activated
    eop_count := hiEopCountNext hi_wm depth s i }

/-- Reset state of the high-watermark wrapper: empty queue,
`transfer_count = hi_wm - 1` (its `Signal` reset value), `activated` and
`eop_count` clear. -/
def hiReset (hi_wm : Nat) : HiState := ⟨[], hi_wm - 1, false, 0⟩

/-- Cycle-by-cycle outputs of a run of the high-watermark wrapper. -/
def hiOuts (hi_wm depth : Nat) (s : HiState) : List HiIn → List HiOut
  | [] => []
  | i :: is =>
    hiComb hi_wm depth s i :: hiOuts hi_wm depth (hiStep hi_wm depth s i) is

/-- Final state of a run of the high-watermark wrapper. -/
def hiFinal (hi_wm depth : Nat) (s : HiState) : List HiIn → HiState
  | [] => s
  | i :: is => hiFinal hi_wm depth (hiStep hi_wm depth s i) is

theorem hiOuts_nil (hi_wm depth : Nat) (s : HiState) :
    hiOuts hi_wm depth s [] = [] := rfl

theorem hiOuts_cons (hi_wm depth : Nat) (s : HiState) (i : HiIn) (is : List HiIn) :
    hiOuts hi_wm depth s (i :: is) =
      hiComb hi_wm depth s i :: hiOuts hi_wm depth (hiStep hi_wm depth s i) is := rfl

theorem hiFinal_cons (hi_wm depth : Nat) (s : HiState) (i : HiIn) (is : List HiIn) :
    hiFinal hi_wm depth s (i :: is) =
      hiFinal hi_wm depth (hiStep hi_wm depth s i) is := rfl

/-- A fill cycle: upstream offers payload `p` with `eop` low, downstream not
ready. -/
def fillIn (p : Nat) : HiIn := ⟨true, false, p, false⟩

/-- A drain cycle: upstream idle, downstream ready. -/
def drainIn : HiIn := ⟨false, false, 0, true⟩

/-- Default output used with `List.getD`. -/
def hiOut0 : HiOut := ⟨false, false, false, false, 0⟩

/-- Wrapper state during filling: `eop`-free queue contents `qs`, counter at
its reset value, not activated. -/
def hiFillState (hi_wm : Nat) (qs : List Nat) : HiState :=
  ⟨qs.map (fun p => (p, false)), hi_wm - 1, false, 0⟩

/-- Wrapper state during draining: `eop`-free queue contents `qs`, counter at
`qs.length - 1`, activation flag `a`. -/
def hiDrainState (hi_wm : Nat) (qs : List Nat) (a : Bool) : HiState :=
  ⟨qs.map (fun p => (p, false)), qs.length - 1, a, 0⟩

/-- Expected outputs of the burst drain of queue contents `qs`: a transfer on
every cycle, `last` only on the final one, payloads in queue order. -/
def burstOuts (depth : Nat) : List Nat → List HiOut
  | [] => []
  | p :: ps =>
    { sinkAck := decide (ps.length + 1 < depth)
      sourceStb := true
      sourceLast := ps.isEmpty
      sourceEop := false
      sourcePayload := p } :: burstOuts depth ps

theorem hiOuts_append (hi_wm depth : Nat) (s : HiState) (as bs : List HiIn) :
    hiOuts hi_wm depth s (as ++ bs) =
      hiOuts hi_wm depth s as ++
        hiOuts hi_wm depth (hiFinal hi_wm depth s as) bs := by
  induction as generalizing s with
  | nil => simp [hiOuts, hiFinal]
  | cons a as ih => simp [hiOuts, hiFinal, ih]

theorem hiFinal_append (hi_wm depth : Nat) (s : HiState) (as bs : List HiIn) :
    hiFinal hi_wm depth s (as ++ bs) =
      hiFinal hi_wm depth (hiFinal hi_wm depth s as) bs := by
  induction as generalizing s with
  | nil => simp [hiFinal]
  | cons a as ih => simp [hiFinal, ih]

theorem hiOuts_length (hi_wm depth : Nat) (s : HiState) (is : List HiIn) :
    (hiOuts hi_wm depth s is).length = is.length := by
  induction is generalizing s with
  | nil => rfl
  | cons i is ih => simp [hiOuts, ih]

theorem burstOuts_length (depth : Nat) (qs : List Nat) :
    (burstOuts depth qs).length = qs.length := by
  induction qs with
  | nil => rfl
  | cons p ps ih => simp [burstOuts, ih]

theorem burstOuts_getD (depth : Nat) :
    ∀ (qs : List Nat) (k : Nat), k < qs.length →
      ((burstOuts depth qs).getD k hiOut0).sourceStb = true ∧
      ((burstOuts depth qs).getD k hiOut0).sourceLast = decide (k = qs.length - 1) ∧
      ((burstOuts depth qs).getD k hiOut0).sourceEop = false ∧
      ((burstOuts depth qs).getD k hiOut0).sourcePayload = qs.getD k 0 := by
  intro qs
  induction qs with
  | nil => intro k hk; simp at hk
  | cons p ps ih =>
    intro k hk
    match k with
    | 0 =>
      refine ⟨rfl, ?_, rfl, rfl⟩
      cases ps <;> simp [burstOuts]
    | k + 1 =>
      have hk' : k < ps.length := by simpa using hk
      have h := ih k hk'
      simp only [burstOuts, List.getD_cons_succ, List.length_cons]
      refine ⟨h.1, ?_, h.2.2.1, h.2.2.2⟩
      rw [h.2.1]
      apply decide_eq_decide.mpr
      omega

@[simp] theorem fillIn_stb (p : Nat) : (fillIn p).stb = true := rfl

@[simp] theorem fillIn_eop (p : Nat) : (fillIn p).eop = false := rfl

@[simp] theorem fillIn_payload (p : Nat) : (fillIn p).payload = p := rfl

@[simp] theorem fillIn_sourceAck (p : Nat) : (fillIn p).sourceAck = false := rfl

@[simp] theorem drainIn_stb : drainIn.stb = false := rfl

@[simp] theorem drainIn_eop : drainIn.eop = false := rfl

@[simp] theorem drainIn_payload : drainIn.payload = 0 := rfl

@[simp] theorem drainIn_sourceAck : drainIn.sourceAck = true := rfl

@[simp] theorem hiFillState_q (w : Nat) (qs : List Nat) :
    (hiFillState w qs).q = qs.map (fun p => (p, false)) := rfl

@[simp] theorem hiFillState_tc (w : Nat) (qs : List Nat) :
    (hiFillState w qs).transfer_count = w - 1 := rfl

@[simp] theorem hiFillState_act (w : Nat) (qs : List Nat) :
    (hiFillState w qs).activated = false := rfl

@[simp] theorem hiFillState_ec (w : Nat) (qs : List Nat) :
    (hiFillState w qs).eop_count = 0 := rfl

@[simp] theorem hiDrainState_q (w : Nat) (qs : List Nat) (a : Bool) :
    (hiDrainState w qs a).q = qs.map (fun p => (p, false)) := rfl

@[simp] theorem hiDrainState_tc (w : Nat) (qs : List Nat) (a : Bool) :
    (hiDrainState w qs a).transfer_count = qs.length - 1 := rfl

@[simp] theorem hiDrainState_act (w : Nat) (qs : List Nat) (a : Bool) :
    (hiDrainState w qs a).activated = a := rfl

@[simp] theorem hiDrainState_ec (w : Nat) (qs : List Nat) (a : Bool) :
    (hiDrainState w qs a).eop_count = 0 := rfl

/-- Filling an `eop`-free queue while the downstream is not ready: no output
transfer happens and the words accumulate in order. -/
theorem hi_fill (hi_wm depth : Nat) (h2 : hi_wm ≤ depth) :
    ∀ (ps qs : List Nat), qs.length + ps.length ≤ hi_wm →
      (∀ o ∈ hiOuts hi_wm depth (hiFillState hi_wm qs) (ps.map fillIn),
        o.sourceStb = false) ∧
      hiFinal hi_wm depth (hiFillState hi_wm qs) (ps.map fillIn) =
        hiFillState hi_wm (qs ++ ps) := by
  intro ps
  induction ps with
  | nil =>
    intro qs h
    exact ⟨by simp [hiOuts], by simp [hiFinal]⟩
  | cons p ps ih =>
    intro qs h
    have hlt : qs.length < hi_wm := by simp only [List.length_cons] at h; omega
    have hwr : qs.length < depth := lt_of_lt_of_le hlt h2
    have hnfull : almost_full hi_wm (qs.map (fun p => (p, false))) = false := by
      simp only [almost_full, List.length_map]
      exact decide_eq_false (Nat.not_le.mpr hlt)
    have hwrb : fifoWritable depth (qs.map (fun p => (p, false))) = true := by
      simp only [fifoWritable, List.length_map]
      exact decide_eq_true hwr
    have hstb : (hiComb hi_wm depth (hiFillState hi_wm qs) (fillIn p)).sourceStb
        = false := by
      simp [hiComb, hnfull]
    have hdr : hiDoRead hi_wm depth (hiFillState hi_wm qs) (fillIn p) = false := by
      simp [hiDoRead, hstb]
    have hecn : hiEopCountNext hi_wm depth (hiFillState hi_wm qs) (fillIn p)
        = 0 := by
      simp [hiEopCountNext, hdr]
    have hstep : hiStep hi_wm depth (hiFillState hi_wm qs) (fillIn p) =
        hiFillState hi_wm (qs ++ [p]) := by
      refine HiState.ext ?_ ?_ ?_ ?_
      · simp only [hiStep, hstb, hiFillState_q, fillIn_stb, fillIn_eop,
          fillIn_payload, fillIn_sourceAck, Bool.false_and]
        simp [fifoStep, hwrb]
      · simp [hiStep, hdr]
      · simp [hiStep, hnfull]
      · simp [hiStep, hecn]
    have harith : (qs ++ [p]).length + ps.length ≤ hi_wm := by
      simp only [List.length_append, List.length_cons, List.length_nil] at h ⊢
      omega
    constructor
    · intro o ho
      simp only [List.map_cons, hiOuts, List.mem_cons] at ho
      rcases ho with rfl | ho
      · exact hstb
      · rw [hstep] at ho
        exact (ih (qs ++ [p]) harith).1 o ho
    · simp only [List.map_cons, hiFinal]
      rw [hstep]
      rw [(ih (qs ++ [p]) harith).2, List.append_assoc]
      rfl

/-- Draining an `eop`-free queue whose length matches `transfer_count + 1`:
one transfer per cycle, `last` only on the final one, and the wrapper ends at
the reset state except that the activation latch is left set when a 1-word
burst entered through `almost_full` on its own drain cycle. -/
theorem hi_drain (hi_wm depth : Nat) :
    ∀ (qs : List Nat), qs ≠ [] → ∀ (a : Bool),
      (a = true ∨ hi_wm ≤ qs.length) →
      hiOuts hi_wm depth (hiDrainState hi_wm qs a)
          (List.replicate qs.length drainIn) = burstOuts depth qs ∧
      hiFinal hi_wm depth (hiDrainState hi_wm qs a)
          (List.replicate qs.length drainIn) =
        ⟨[], hi_wm - 1, !a && (qs.length == 1), 0⟩ := by
  intro qs
  induction qs with
  | nil => intro h; exact absurd rfl h
  | cons p ps ih =>
    intro _ a ha
    have hfull : (almost_full hi_wm ((p, false) :: ps.map (fun p => (p, false)))
        || a) = true := by
      rcases ha with rfl | ha
      · exact Bool.or_true _
      · have haf : almost_full hi_wm ((p, false) :: ps.map (fun p => (p, false)))
            = true := by
          simp only [almost_full, List.length_cons, List.length_map]
          exact decide_eq_true (by simpa using ha)
        simp [haf]
    have hstb : (hiComb hi_wm depth (hiDrainState hi_wm (p :: ps) a)
        drainIn).sourceStb = true := by
      simp only [hiComb, hiDrainState_q, hiDrainState_act, List.map_cons,
        fifoReadable, List.isEmpty_cons, Bool.not_false, Bool.true_and]
      exact hfull
    have hdr : hiDoRead hi_wm depth (hiDrainState hi_wm (p :: ps) a) drainIn
        = true := by
      simp [hiDoRead, hstb, fifoReadable]
    have hdw : hiDoWrite depth (hiDrainState hi_wm (p :: ps) a) drainIn
        = false := by
      simp [hiDoWrite]
    have hecn : hiEopCountNext hi_wm depth (hiDrainState hi_wm (p :: ps) a)
        drainIn = 0 := by
      simp [hiEopCountNext, hdw, fifoDout]
    have hlast : (hiComb hi_wm depth (hiDrainState hi_wm (p :: ps) a)
        drainIn).sourceLast = ps.isEmpty := by
      simp only [hiComb, hiDrainState_q, hiDrainState_tc, List.map_cons,
        List.length_cons, Nat.add_sub_cancel, fifoDout, List.headD_cons,
        Bool.or_false]
      cases ps <;> simp
    have hcomb : hiComb hi_wm depth (hiDrainState hi_wm (p :: ps) a) drainIn =
        { sinkAck := decide (ps.length + 1 < depth)
          sourceStb := true
          sourceLast := ps.isEmpty
          sourceEop := false
          sourcePayload := p } := by
      refine HiOut.ext ?_ hstb hlast rfl rfl
      simp [hiComb, fifoWritable]
    have hq : (hiStep hi_wm depth (hiDrainState hi_wm (p :: ps) a) drainIn).q
        = ps.map (fun p => (p, false)) := by
      simp only [hiStep, hstb, drainIn_stb, drainIn_eop, drainIn_payload,
        drainIn_sourceAck, Bool.true_and, hiDrainState_q, List.map_cons]
      simp [fifoStep, fifoReadable]
    cases hps : ps with
    | nil =>
      subst hps
      have hstep : hiStep hi_wm depth (hiDrainState hi_wm [p] a) drainIn =
          ⟨[], hi_wm - 1, !a, 0⟩ := by
        refine HiState.ext (by simpa using hq) ?_ ?_ (by simpa using hecn)
        · simp [hiStep, hdr, hlast]
        · cases a with
          | true => simp [hiStep, hdr, hlast, hecn]
          | false =>
            have h1 : hi_wm ≤ 1 := by
              rcases ha with h | h
              · exact absurd h (by simp)
              · simpa using h
            have haf : almost_full hi_wm [(p, false)] = true := by
              simp only [almost_full, List.length_singleton]
              exact decide_eq_true h1
            simp only [hiStep, hiDrainState_act, Bool.not_false, if_true]
            simp [haf, hdw]
      refine ⟨?_, ?_⟩
      · rw [show List.replicate ([p].length) drainIn = [drainIn] from rfl]
        rw [hiOuts_cons, hcomb, hstep, hiOuts_nil]
        rfl
      · rw [show List.replicate ([p].length) drainIn = [drainIn] from rfl]
        rw [hiFinal_cons, hstep]
        simp [hiFinal]
    | cons p2 ps2 =>
      subst hps
      have hlastF : (hiComb hi_wm depth
          (hiDrainState hi_wm (p :: p2 :: ps2) a) drainIn).sourceLast
          = false := by simpa using hlast
      have hstep : hiStep hi_wm depth (hiDrainState hi_wm (p :: p2 :: ps2) a)
          drainIn = hiDrainState hi_wm (p2 :: ps2) true := by
        refine HiState.ext (by simpa using hq) ?_ ?_ (by simpa using hecn)
        · simp [hiStep, hdr, hlastF]
        · cases a with
          | true => simp [hiStep, hdr, hlastF]
          | false =>
            have h1 : hi_wm ≤ ps2.length + 2 := by
              rcases ha with h | h
              · exact absurd h (by simp)
              · simpa using h
            have haf : almost_full hi_wm ((p, false) :: (p2, false) ::
                List.map (fun p => (p, false)) ps2) = true := by
              simp only [almost_full, List.length_cons, List.length_map]
              exact decide_eq_true (by omega)
            simp only [hiStep, hiDrainState_act, Bool.not_false, if_true]
            simp [haf, hdw]
      have hrec := ih (List.cons_ne_nil p2 ps2) true (Or.inl rfl)
      refine ⟨?_, ?_⟩
      · rw [List.length_cons, List.replicate_succ]
        rw [hiOuts_cons, hcomb, hstep, hrec.1]
        rfl
      · rw [List.length_cons, List.replicate_succ]
        rw [hiFinal_cons, hstep, hrec.2]
        have hlen1 : ((p2 :: ps2).length + 1 == 1) = false := by
          simp only [List.length_cons, beq_eq_false_iff_ne, ne_eq]
          omega
        simp [hlen1]

/-- With the queue empty and the upstream idle (and `hi_wm > 0`), the wrapper
never asserts `source.stb` and its registers do not change. -/
theorem hi_idle (hi_wm depth : Nat) (h1 : 0 < hi_wm) :
    ∀ (n tc ec : Nat) (a : Bool),
      (∀ o ∈ hiOuts hi_wm depth ⟨[], tc, a, ec⟩ (List.replicate n drainIn),
        o.sourceStb = false) ∧
      hiFinal hi_wm depth ⟨[], tc, a, ec⟩ (List.replicate n drainIn)
        = ⟨[], tc, a, ec⟩ := by
  intro n
  induction n with
  | zero => intro tc ec a; exact ⟨by simp [hiOuts], rfl⟩
  | succ n ih =>
    intro tc ec a
    have hstb : (hiComb hi_wm depth ⟨[], tc, a, ec⟩ drainIn).sourceStb
        = false := by
      simp [hiComb, fifoReadable]
    have hdr : hiDoRead hi_wm depth ⟨[], tc, a, ec⟩ drainIn = false := by
      simp [hiDoRead, hstb]
    have hdw : hiDoWrite depth ⟨[], tc, a, ec⟩ drainIn = false := by
      simp [hiDoWrite]
    have hecn : hiEopCountNext hi_wm depth ⟨[], tc, a, ec⟩ drainIn = ec := by
      simp [hiEopCountNext, hdr, hdw]
    have hstep : hiStep hi_wm depth ⟨[], tc, a, ec⟩ drainIn = ⟨[], tc, a, ec⟩ := by
      refine HiState.ext ?_ ?_ ?_ (by simpa using hecn)
      · simp [hiStep, fifoStep, hstb, fifoWritable]
      · simp [hiStep, hdr]
      · cases a with
        | true => simp [hiStep, hdr]
        | false =>
          have haf : almost_full hi_wm ([] : List FifoEntry) = false := by
            simp only [almost_full, List.length_nil]
            exact decide_eq_false (by omega)
          simp [hiStep, hdw, haf]
    constructor
    · intro o ho
      simp only [List.replicate, hiOuts, List.mem_cons] at ho
      rcases ho with rfl | ho
      · exact hstb
      · rw [hstep] at ho
        exact (ih tc ec a).1 o ho
    · simp only [List.replicate, hiFinal, hstep]
      exact (ih tc ec a).2

/-- C1: from reset, writing exactly `hi_wm` `eop`-free words into the sink
(downstream not ready), then holding `source.ack` high with the upstream
idle, produces no transfer during the fill, then exactly one burst of
`hi_wm` transfers delivering the written words in order with `source.last`
asserted on the final transfer and on no earlier one, and no transfer ever
after; internally `transfer_count` resets to `hi_wm - 1`, decrements on each
read that does not end the burst, reloads on one that does, and
`source.last` holds exactly when `transfer_count` is zero or the dequeued
entry's `eop` bit is set. -/
theorem c1_hi_watermark (hi_wm depth m : Nat) (ps : List Nat) (outs : List HiOut)
    (h1 : 0 < hi_wm) (h2 : hi_wm ≤ depth) (hps : ps.length = hi_wm)
    (houts : outs = hiOuts hi_wm depth (hiReset hi_wm)
      (ps.map fillIn ++ List.replicate (hi_wm + m) drainIn)) :
    (∀ k, k < hi_wm → (outs.getD k hiOut0).sourceStb = false) ∧
    (∀ k, k < hi_wm →
      (outs.getD (hi_wm + k) hiOut0).sourceStb = true ∧
      (outs.getD (hi_wm + k) hiOut0).sourceLast = decide (k = hi_wm - 1) ∧
      (outs.getD (hi_wm + k) hiOut0).sourceEop = false ∧
      (outs.getD (hi_wm + k) hiOut0).sourcePayload = ps.getD k 0) ∧
    (∀ k, 2 * hi_wm ≤ k → (outs.getD k hiOut0).sourceStb = false) ∧
    ((hiReset hi_wm).transfer_count = hi_wm - 1) ∧
    (∀ (s : HiState) (i : HiIn),
      (hiComb hi_wm depth s i).sourceLast =
        ((s.transfer_count == 0) || (fifoDout s.q).2)) ∧
    (∀ (s : HiState) (i : HiIn),
      hiDoRead hi_wm depth s i = true →
      (hiComb hi_wm depth s i).sourceLast = false →
      (hiStep hi_wm depth s i).transfer_count = s.transfer_count - 1) ∧
    (∀ (s : HiState) (i : HiIn),
      hiDoRead hi_wm depth s i = true →
      (hiComb hi_wm depth s i).sourceLast = true →
      (hiStep hi_wm depth s i).transfer_count = hi_wm - 1) := by
  subst houts
  subst hps
  have hfill := hi_fill ps.length depth h2 ps [] (by simp)
  have hfillF : hiFinal ps.length depth (hiReset ps.length) (ps.map fillIn) =
      hiDrainState ps.length ps false := by
    rw [show hiReset ps.length = hiFillState ps.length [] from rfl, hfill.2]
    rfl
  have hne : ps ≠ [] := by
    intro hc
    rw [hc] at h1
    simp at h1
  have hdrain := hi_drain ps.length depth ps hne false (Or.inr le_rfl)
  have hidle := hi_idle ps.length depth h1 m (ps.length - 1) 0
    (!false && (ps.length == 1))
  have houts2 :
      hiOuts ps.length depth (hiReset ps.length)
        (ps.map fillIn ++ List.replicate (ps.length + m) drainIn) =
      hiOuts ps.length depth (hiFillState ps.length []) (ps.map fillIn) ++
        (burstOuts depth ps ++
          hiOuts ps.length depth ⟨[], ps.length - 1, !false && (ps.length == 1), 0⟩
            (List.replicate m drainIn)) := by
    rw [show hiReset ps.length = hiFillState ps.length [] from rfl]
    rw [List.replicate_add, hiOuts_append]
    rw [show hiFillState ps.length [] = hiReset ps.length from rfl, hfillF]
    rw [hiOuts_append, hdrain.1, hdrain.2]
  have hlenF : (hiOuts ps.length depth (hiFillState ps.length [])
      (ps.map fillIn)).length = ps.length := by
    rw [hiOuts_length]
    simp
  have hlenG : (burstOuts depth ps).length = ps.length := burstOuts_length _ _
  refine ⟨?_, ?_, ?_, rfl, fun s i => rfl, ?_, ?_⟩
  · intro k hk
    rw [houts2, List.getD_append _ _ _ _ (by rw [hlenF]; exact hk)]
    have hkF : k < (hiOuts ps.length depth (hiFillState ps.length [])
        (ps.map fillIn)).length := by
      rw [hlenF]; exact hk
    rw [List.getD_eq_getElem _ _ hkF]
    exact hfill.1 _ (List.getElem_mem _)
  · intro k hk
    rw [houts2, List.getD_append_right _ _ _ _ (by rw [hlenF]; omega)]
    rw [hlenF]
    rw [show ps.length + k - ps.length = k by omega]
    rw [List.getD_append _ _ _ _ (by rw [hlenG]; exact hk)]
    have h := burstOuts_getD depth ps k hk
    exact ⟨h.1, h.2.1, h.2.2.1, h.2.2.2⟩
  · intro k hk
    rw [houts2, List.getD_append_right _ _ _ _ (by rw [hlenF]; omega)]
    rw [List.getD_append_right _ _ _ _ (by rw [hlenF, hlenG]; omega)]
    by_cases hlt : k - (hiOuts ps.length depth (hiFillState ps.length [])
        (ps.map fillIn)).length - (burstOuts depth ps).length <
        (hiOuts ps.length depth ⟨[], ps.length - 1, !false && (ps.length == 1), 0⟩
          (List.replicate m drainIn)).length
    · rw [List.getD_eq_getElem _ _ hlt]
      exact hidle.1 _ (List.getElem_mem _)
    · rw [List.getD_eq_default _ _ (Nat.le_of_not_lt hlt)]
      rfl
  · intro s i hdrr hl
    simp [hiStep, hdrr, hl]
  · intro s i hdrr hl
    simp [hiStep, hdrr, hl]

/-- Witness for C1 at `hi_wm = 3`, `depth = 4`, payloads `[10, 20, 30]`, two
extra idle cycles: the burst's third transfer has `stb`, `last`, and carries
payload 30. -/
theorem c1_hi_watermark_witness :
    ((hiOuts 3 4 (hiReset 3) ([10, 20, 30].map fillIn ++
        List.replicate 5 drainIn)).getD 5 hiOut0).sourceStb = true ∧
    ((hiOuts 3 4 (hiReset 3) ([10, 20, 30].map fillIn ++
        List.replicate 5 drainIn)).getD 5 hiOut0).sourceLast = true ∧
    ((hiOuts 3 4 (hiReset 3) ([10, 20, 30].map fillIn ++
        List.replicate 5 drainIn)).getD 5 hiOut0).sourcePayload = 30 := by
  have h := c1_hi_watermark 3 4 2 [10, 20, 30]
    (hiOuts 3 4 (hiReset 3) ([10, 20, 30].map fillIn ++
      List.replicate (3 + 2) drainIn))
    (by decide) (by decide) (by decide) rfl
  have hb := h.2.1 2 (by decide)
  refine ⟨by simpa using hb.1, by simpa using hb.2.1, by simpa using hb.2.2.2⟩

/-! ### `_UpConverter` (stream.py lines 241-293) and `_DownConverter`
(stream.py lines 295-334)

The wide data bus is represented as the list of its `ratio` sub-word slots
(slice `[n*nbits : (n+1)*nbits]` of the flat register becomes slot `n`); the
wire-width truncation of a slice assignment is kept as `% 2 ^ nbits`.  The
slot selected for sub-word `i` is `ratio-i-1` when the `reverse` flag is set,
`i` otherwise, exactly as in both converters' data-path `Case` statements. -/

/-- Slot picked for sub-word index `i`: `n = ratio-i-1 if reverse else i`
(stream.py lines 287 and 329). -/
def slotIndex (ratio : Nat) (reverse : Bool) (i : Nat) : Nat :=
  if reverse then ratio - i - 1 else i

structure UpState where
  demux : Nat
  strobe_all : Bool
  data : List Nat
  eop : Bool
  valid_token_count : Nat
deriving Repr, DecidableEq

structure UpIn where
  stb : Bool
  eop : Bool
  data : Nat
  sourceAck : Bool
deriving Repr, DecidableEq

structure UpOut where
  sinkAck : Bool
  sourceStb : Bool
  sourceLast : Bool
  sourceEop : Bool
  sourceData : List Nat
  sourceVtc : Option Nat
deriving Repr, DecidableEq

attribute [ext] UpState UpOut

/-- Combinational part of `_UpConverter` (lines 257-265):
`sink.ack = ~strobe_all | source.ack`, `source.stb = strobe_all`,
`source.last = 1`; `source.eop`, `source.data` and the token count are
registers presented directly. -/
def upComb (nbits_from ratio : Nat) (reverse report : Bool) (s : UpState)
    (i : UpIn) : UpOut :=
  { sinkAck := !s.strobe_all || i.sourceAck
    sourceStb := s.strobe_all
    sourceLast := true
    sourceEop := s.eop
    sourceData := s.data
    sourceVtc := if report then some s.valid_token_count else none }

/-- Clock-edge update of `_UpConverter` (lines 267-292):
`load_part = sink.stb & sink.ack`, `demux_last = (demux == ratio-1) | sink.eop`;
a completed or flushed group raises `strobe_all` (overriding the clear on
`source.ack`), `source.eop` is reloaded from `sink.eop` on a source transfer
and OR-accumulated on a sink transfer, the data register's selected slot is
written on `load_part` (the `Case` has no default, so an out-of-range `demux`
writes nothing), and the token count records `demux + 1` on `load_part`. -/
def upStep (nbits_from ratio : Nat) (reverse report : Bool) (s : UpState)
    (i : UpIn) : UpState :=
  let load_part := i.stb && (!s.strobe_all || i.sourceAck)
  let demux_last := (s.demux == ratio - 1) || i.eop
  { demux := if load_part then (if demux_last then 0 else s.demux + 1) else s.demux
    strobe_all :=
      if load_part && demux_last then true
      else if i.sourceAck then false
      else s.strobe_all
    data :=
      if load_part && decide (s.demux < ratio) then
        s.data.set (slotIndex ratio reverse s.demux) (i.data % 2 ^ nbits_from)
      else s.data
    eop :=
      if s.strobe_all && i.sourceAck then i.eop
      else if load_part then i.eop || s.eop
      else s.eop
    valid_token_count :=
      if report && load_part then s.demux + 1 else s.valid_token_count }

/-- Reset state of `_UpConverter`: all registers zero. -/
def upReset (ratio : Nat) : UpState := ⟨0, false, List.replicate ratio 0, false, 0⟩

/-- Reachability invariant of `_UpConverter` under well-formed inputs: a
pending `eop` implies a pending group (`strobe_all`), and a pending group
implies the slot counter was reset. -/
def UpInv (s : UpState) : Prop :=
  (s.eop = true → s.strobe_all = true) ∧ (s.strobe_all = true → s.demux = 0)

structure DownIn where
  stb : Bool
  last : Bool
  eop : Bool
  data : List Nat
  sourceAck : Bool
deriving Repr, DecidableEq

structure DownOut where
  sinkAck : Bool
  sourceStb : Bool
  sourceLast : Bool
  sourceEop : Bool
  sourceData : Nat
  sourceVtc : Option Nat
deriving Repr, DecidableEq

/-- Combinational part of `_DownConverter` (lines 307-334):
`last = (mux == ratio-1)`, `source.stb = sink.stb`,
`source.eop = sink.eop & last`, `source.last = sink.last & last`,
`sink.ack = last & source.ack`, the data mux picks the slot for the current
sub-word (the `Case` is `makedefault()`-ed, modelled by clamping an
out-of-range `mux` to the last case), and the token count reports `last`. -/
def downComb (nbits_to ratio : Nat) (reverse report : Bool) (mux : Nat)
    (i : DownIn) : DownOut :=
  let last := mux == ratio - 1
  { sinkAck := last && i.sourceAck
    sourceStb := i.stb
    sourceLast := i.last && last
    sourceEop := i.eop && last
    sourceData :=
      (i.data.getD (slotIndex ratio reverse
        (if mux < ratio then mux else ratio - 1)) 0) % 2 ^ nbits_to
    sourceVtc := if report then some (if last then 1 else 0) else none }

/-- Clock-edge update of `_DownConverter`'s `mux` counter (lines 317-324): on
a source transfer, wrap to 0 on the last sub-word, else count up. -/
def downStep (ratio : Nat) (mux : Nat) (i : DownIn) : Nat :=
  if i.stb && i.sourceAck then (if mux == ratio - 1 then 0 else mux + 1)
  else mux

/-- Cycle-by-cycle outputs of a run of `_DownConverter`. -/
def downOuts (nbits_to ratio : Nat) (reverse report : Bool) (mux : Nat) :
    List DownIn → List DownOut
  | [] => []
  | i :: is =>
    downComb nbits_to ratio reverse report mux i ::
      downOuts nbits_to ratio reverse report (downStep ratio mux i) is

/-- Final `mux` value of a run of `_DownConverter`. -/
def downFinal (ratio : Nat) (mux : Nat) : List DownIn → Nat
  | [] => mux
  | i :: is => downFinal ratio (downStep ratio mux i) is

/-- A feed cycle for C4: the wide word `w` offered with `eop` and `last`
set, downstream ready. -/
def downFeedIn (w : List Nat) : DownIn := ⟨true, true, true, w, true⟩

/-- An idle cycle: upstream idle, downstream ready. -/
def downIdleIn : DownIn := ⟨false, false, false, [], true⟩

/-- Default output used with `List.getD`. -/
def downOut0 : DownOut := ⟨false, false, false, false, 0, none⟩

theorem downOuts_append (nbits_to ratio : Nat) (reverse report : Bool)
    (mux : Nat) (as bs : List DownIn) :
    downOuts nbits_to ratio reverse report mux (as ++ bs) =
      downOuts nbits_to ratio reverse report mux as ++
        downOuts nbits_to ratio reverse report (downFinal ratio mux as) bs := by
  induction as generalizing mux with
  | nil => simp [downOuts, downFinal]
  | cons a as ih => simp [downOuts, downFinal, ih]

theorem downOuts_length (nbits_to ratio : Nat) (reverse report : Bool)
    (mux : Nat) (is : List DownIn) :
    (downOuts nbits_to ratio reverse report mux is).length = is.length := by
  induction is generalizing mux with
  | nil => rfl
  | cons i is ih => simp [downOuts, ih]

/-- C3: `_UpConverter`'s `eop` handling.  From reset (which satisfies the
invariant, preserved by every well-formed cycle: `eop` asserted only with
`stb`): the `source.eop` register equals the `eop` of the input that
completed or early-flushed the pending group (recorded at the completing
sink transfer, held unchanged while the group awaits delivery, and presented
combinationally on the output transfer), and a pending `eop` is OR-ed
forward — it is never cleared by a cycle without an output transfer. -/
theorem c3_up_eop (nbits_from ratio : Nat) (reverse report : Bool)
    (s : UpState) (i : UpIn) :
    UpInv (upReset ratio) ∧
    (UpInv s → (i.eop = true → i.stb = true) →
      UpInv (upStep nbits_from ratio reverse report s i)) ∧
    ((upComb nbits_from ratio reverse report s i).sourceEop = s.eop ∧
      (upComb nbits_from ratio reverse report s i).sourceStb = s.strobe_all) ∧
    (UpInv s → i.stb = true →
      (upComb nbits_from ratio reverse report s i).sinkAck = true →
      ((s.demux == ratio - 1) || i.eop) = true →
      (upStep nbits_from ratio reverse report s i).eop = i.eop) ∧
    (s.strobe_all = true → i.sourceAck = false →
      (upStep nbits_from ratio reverse report s i).eop = s.eop ∧
      (upStep nbits_from ratio reverse report s i).strobe_all = true ∧
      (upStep nbits_from ratio reverse report s i).data = s.data) ∧
    (s.eop = true → (s.strobe_all && i.sourceAck) = false →
      (upStep nbits_from ratio reverse report s i).eop = true) := by
  refine ⟨⟨fun h => by simp [upReset] at h, fun h => by simp [upReset] at h⟩,
    ?_, ⟨rfl, rfl⟩, ?_, ?_, ?_⟩
  · -- invariant preservation
    rintro ⟨hI1, hI2⟩ hwf
    constructor
    · intro he
      by_cases hdel : (s.strobe_all && i.sourceAck) = true
      · have heop : i.eop = true := by
          simp only [upStep, hdel, if_true] at he
          exact he
        have hstb : i.stb = true := hwf heop
        have hack : i.sourceAck = true := by
          have h' := hdel
          rw [Bool.and_eq_true] at h'
          exact h'.2
        have hload : (i.stb && (!s.strobe_all || i.sourceAck)) = true := by
          simp [hstb, hack]
        have hdl : ((s.demux == ratio - 1) || i.eop) = true := by simp [heop]
        simp only [upStep]
        simp [hload, hdl]
      · by_cases hload : (i.stb && (!s.strobe_all || i.sourceAck)) = true
        · have he' : (i.eop || s.eop) = true := by
            simp only [upStep] at he
            simp [hdel, hload] at he
            rcases he with he | he <;> simp [he]
          cases heop : i.eop with
          | true =>
            have hdl : ((s.demux == ratio - 1) || i.eop) = true := by simp [heop]
            simp only [upStep]
            simp [hload, hdl]
          | false =>
            have hse : s.eop = true := by simpa [heop] using he'
            have hsa : s.strobe_all = true := hI1 hse
            have hack : i.sourceAck = true := by
              have h' := hload
              rw [Bool.and_eq_true] at h'
              simpa [hsa] using h'.2
            exact absurd (by simp [hsa, hack] :
              (s.strobe_all && i.sourceAck) = true) hdel
        · have hse : s.eop = true := by
            simp only [upStep] at he
            simp [hdel, hload] at he
            exact he
          have hsa : s.strobe_all = true := hI1 hse
          have hack : i.sourceAck = false := by
            cases hack : i.sourceAck
            · rfl
            · exact absurd (by simp [hsa, hack]) hdel
          simp only [upStep]
          simp [hload, hack, hsa]
    · intro hs
      by_cases hldl : ((i.stb && (!s.strobe_all || i.sourceAck)) &&
          ((s.demux == ratio - 1) || i.eop)) = true
      · have h' := hldl
        rw [Bool.and_eq_true] at h'
        simp only [upStep]
        simp [h'.1, h'.2]
      · simp only [upStep] at hs
        rw [if_neg (by simpa using hldl)] at hs
        by_cases hack : i.sourceAck = true
        · rw [if_pos hack] at hs
          exact absurd hs (by simp)
        · have hackF : i.sourceAck = false := by
            cases h : i.sourceAck
            · rfl
            · exact absurd h hack
          rw [if_neg hack] at hs
          have hd0 : s.demux = 0 := hI2 hs
          have hload : (i.stb && (!s.strobe_all || i.sourceAck)) = false := by
            simp [hs, hackF]
          simp only [upStep]
          simp [hload, hd0]
  · -- a completing sink transfer records the completing input's eop
    rintro ⟨hI1, hI2⟩ hstb hack hdl
    have hload : (i.stb && (!s.strobe_all || i.sourceAck)) = true := by
      simp only [upComb] at hack
      simp [hstb, hack]
    by_cases hdel : (s.strobe_all && i.sourceAck) = true
    · simp only [upStep]
      simp [hdel]
    · have hsaF : s.strobe_all = false := by
        cases hsa : s.strobe_all
        · rfl
        · have h' := hload
          rw [Bool.and_eq_true] at h'
          have : i.sourceAck = true := by simpa [hsa] using h'.2
          exact absurd (by simp [hsa, this]) hdel
      have hse : s.eop = false := by
        cases hseop : s.eop
        · rfl
        · exact absurd (hI1 hseop) (by simp [hsaF])
      simp only [upStep]
      simp [hdel, hload, hse]
  · -- a pending group is held unchanged while the consumer is not ready
    intro hsa hack
    have hload : (i.stb && (!s.strobe_all || i.sourceAck)) = false := by
      simp [hsa, hack]
    refine ⟨?_, ?_, ?_⟩
    · simp only [upStep]
      simp [hsa, hack, hload]
    · simp only [upStep]
      simp [hsa, hack, hload]
    · simp only [upStep]
      simp [hload]
  · -- a pending eop is never dropped without an output transfer
    intro hse hdel
    by_cases hload : (i.stb && (!s.strobe_all || i.sourceAck)) = true
    · simp only [upStep]
      simp [hdel, hload, hse]
    · simp only [upStep]
      simp [hdel, hload, hse]

/-- Witness for C3 at `ratio = 2`: a concrete state with a completing `eop`
input, and a concrete pending-`eop` state that survives a stalled cycle. -/
theorem c3_up_eop_witness :
    UpInv (upReset 2) ∧
    (upStep 8 2 false false ⟨1, false, [5, 0], false, 0⟩
      ⟨true, true, 7, false⟩).eop = true ∧
    (upStep 8 2 false false ⟨0, true, [5, 7], true, 0⟩
      ⟨false, false, 0, false⟩).eop = true := by
  have h1 := c3_up_eop 8 2 false false ⟨1, false, [5, 0], false, 0⟩
    ⟨true, true, 7, false⟩
  have h2 := c3_up_eop 8 2 false false ⟨0, true, [5, 7], true, 0⟩
    ⟨false, false, 0, false⟩
  refine ⟨h1.1, ?_, ?_⟩
  · have := h1.2.2.2.1 (by constructor <;> simp) rfl (by simp [upComb]) (by simp)
    simpa using this
  · exact h2.2.2.2.2.2 rfl (by simp)

/-- Feeding `_DownConverter` the held wide word with the consumer ready,
starting at sub-word `j`: every cycle is a transfer, the handshake flags and
the token count single out the final sub-word, and `mux` wraps to 0. -/
theorem down_feed (nbits_to ratio : Nat) (reverse : Bool) (w : List Nat) :
    ∀ (n j : Nat), j + n = ratio →
      (∀ k, k < n → ∀ o, o = (downOuts nbits_to ratio reverse true j
          (List.replicate n (downFeedIn w))).getD k downOut0 →
        o.sourceStb = true ∧
        o.sourceEop = decide (j + k = ratio - 1) ∧
        o.sourceLast = decide (j + k = ratio - 1) ∧
        o.sinkAck = decide (j + k = ratio - 1) ∧
        o.sourceVtc = some (if j + k = ratio - 1 then 1 else 0)) ∧
      (0 < n → downFinal ratio j (List.replicate n (downFeedIn w)) = 0) := by
  intro n
  induction n with
  | zero =>
    intro j hj
    exact ⟨fun k hk => absurd hk (by omega), fun h => absurd h (by omega)⟩
  | succ n ih =>
    intro j hj
    rcases Nat.eq_zero_or_pos n with hn | hn
    · subst hn
      have hj' : j = ratio - 1 := by omega
      have hbeq : (j == ratio - 1) = true := by simp [hj']
      constructor
      · rintro k hk o rfl
        have hk0 : k = 0 := by omega
        subst hk0
        refine ⟨rfl, ?_, ?_, ?_, ?_⟩ <;>
          simp [downOuts, downComb, downFeedIn, hbeq, hj']
      · intro _
        simp [downFinal, downStep, downFeedIn, hbeq]
    · have hne : j ≠ ratio - 1 := by omega
      have hbeq : (j == ratio - 1) = false := by simp [hne]
      have hstep : downStep ratio j (downFeedIn w) = j + 1 := by
        simp [downStep, downFeedIn, hbeq]
      have hrec := ih (j + 1) (by omega)
      constructor
      · rintro k hk o rfl
        match k with
        | 0 =>
          refine ⟨rfl, ?_, ?_, ?_, ?_⟩ <;>
            simp [downOuts, downComb, downFeedIn, hbeq, hne]
        | k + 1 =>
          have hk' : k < n := by omega
          have h := hrec.1 k hk' _ rfl
          have hd : decide (j + 1 + k = ratio - 1)
              = decide (j + (k + 1) = ratio - 1) :=
            decide_eq_decide.mpr (by omega)
          have hif : (if j + 1 + k = ratio - 1 then 1 else 0)
              = (if j + (k + 1) = ratio - 1 then (1 : Nat) else 0) := by
            by_cases hc : j + 1 + k = ratio - 1
            · rw [if_pos hc, if_pos (by omega)]
            · rw [if_neg hc, if_neg (by omega)]
          simp only [List.replicate_succ, downOuts, List.getD_cons_succ, hstep]
          refine ⟨h.1, ?_, ?_, ?_, ?_⟩
          · rw [← hd]; exact h.2.1
          · rw [← hd]; exact h.2.2.1
          · rw [← hd]; exact h.2.2.2.1
          · rw [← hif]; exact h.2.2.2.2
      · intro _
        simp only [List.replicate_succ, downFinal, hstep]
        exact hrec.2 hn

/-- `_DownConverter` idling at `mux = 0` (for `ratio ≥ 2`): no output
transfer, token count 0, `mux` unchanged. -/
theorem down_idle (nbits_to ratio : Nat) (reverse : Bool) (hr : 2 ≤ ratio) :
    ∀ (n : Nat),
      (∀ o ∈ downOuts nbits_to ratio reverse true 0
          (List.replicate n downIdleIn),
        o.sourceStb = false ∧ o.sourceVtc = some 0) ∧
      downFinal ratio 0 (List.replicate n downIdleIn) = 0 := by
  have hbeq : ((0 : Nat) == ratio - 1) = false := by
    simp only [beq_eq_false_iff_ne, ne_eq]
    omega
  have hstep : downStep ratio 0 downIdleIn = 0 := by
    simp [downStep, downIdleIn]
  intro n
  induction n with
  | zero => exact ⟨by simp [downOuts], rfl⟩
  | succ n ih =>
    constructor
    · intro o ho
      simp only [List.replicate_succ, downOuts, hstep, List.mem_cons] at ho
      rcases ho with rfl | ho
      · exact ⟨rfl, by simp [downComb, downIdleIn, hbeq]⟩
      · exact ih.1 o ho
    · simp only [List.replicate_succ, downFinal, hstep]
      exact ih.2

/-- C4: feeding `_DownConverter` (ratio `r ≥ 2`, token-count reporting on)
one wide word with `eop` and `last` set, consumer always ready, gives
exactly `r` narrow transfers; `source.eop`, `source.last` and `sink.ack` are
asserted exactly on the `r`-th, the token count is 1 exactly there and 0 on
every other cycle of the run, and no transfer happens after the word is
consumed. -/
theorem c4_down_converter (nbits_to ratio m : Nat) (reverse : Bool)
    (w : List Nat) (outs : List DownOut)
    (hr : 2 ≤ ratio)
    (houts : outs = downOuts nbits_to ratio reverse true 0
      (List.replicate ratio (downFeedIn w) ++ List.replicate m downIdleIn)) :
    (∀ k, k < ratio →
      (outs.getD k downOut0).sourceStb = true ∧
      (outs.getD k downOut0).sourceEop = decide (k = ratio - 1) ∧
      (outs.getD k downOut0).sourceLast = decide (k = ratio - 1) ∧
      (outs.getD k downOut0).sinkAck = decide (k = ratio - 1) ∧
      (outs.getD k downOut0).sourceVtc = some (if k = ratio - 1 then 1 else 0)) ∧
    (∀ k, ratio ≤ k → (outs.getD k downOut0).sourceStb = false) ∧
    (∀ k, ratio ≤ k → k < ratio + m →
      (outs.getD k downOut0).sourceVtc = some 0) := by
  subst houts
  have hfeed := down_feed nbits_to ratio reverse w ratio 0 (by omega)
  have hidle := down_idle nbits_to ratio reverse hr m
  have hsplit : downOuts nbits_to ratio reverse true 0
      (List.replicate ratio (downFeedIn w) ++ List.replicate m downIdleIn) =
      downOuts nbits_to ratio reverse true 0
        (List.replicate ratio (downFeedIn w)) ++
      downOuts nbits_to ratio reverse true 0 (List.replicate m downIdleIn) := by
    rw [downOuts_append, hfeed.2 (by omega)]
  have hlenF : (downOuts nbits_to ratio reverse true 0
      (List.replicate ratio (downFeedIn w))).length = ratio := by
    rw [downOuts_length, List.length_replicate]
  have hlenI : (downOuts nbits_to ratio reverse true 0
      (List.replicate m downIdleIn)).length = m := by
    rw [downOuts_length, List.length_replicate]
  refine ⟨?_, ?_, ?_⟩
  · intro k hk
    rw [hsplit, List.getD_append _ _ _ _ (by rw [hlenF]; exact hk)]
    have h := hfeed.1 k hk _ rfl
    simpa using h
  · intro k hk
    rw [hsplit, List.getD_append_right _ _ _ _ (by rw [hlenF]; omega)]
    by_cases hlt : k - (downOuts nbits_to ratio reverse true 0
        (List.replicate ratio (downFeedIn w))).length <
        (downOuts nbits_to ratio reverse true 0
          (List.replicate m downIdleIn)).length
    · rw [List.getD_eq_getElem _ _ hlt]
      exact (hidle.1 _ (List.getElem_mem _)).1
    · rw [List.getD_eq_default _ _ (Nat.le_of_not_lt hlt)]
      rfl
  · intro k hk hk2
    rw [hsplit, List.getD_append_right _ _ _ _ (by rw [hlenF]; omega)]
    have hlt : k - (downOuts nbits_to ratio reverse true 0
        (List.replicate ratio (downFeedIn w))).length <
        (downOuts nbits_to ratio reverse true 0
          (List.replicate m downIdleIn)).length := by
      rw [hlenF, hlenI]
      omega
    rw [List.getD_eq_getElem _ _ hlt]
    exact (hidle.1 _ (List.getElem_mem _)).2

/-- Witness for C4 at ratio 3, wide word `[4, 5, 6]`, one idle cycle: the
third transfer carries `stb`/`last`, and the fourth cycle has no transfer. -/
theorem c4_down_converter_witness :
    (((downOuts 8 3 false true 0
        (List.replicate 3 (downFeedIn [4, 5, 6]) ++
          List.replicate 1 downIdleIn)).getD 2 downOut0).sourceStb = true) ∧
    (((downOuts 8 3 false true 0
        (List.replicate 3 (downFeedIn [4, 5, 6]) ++
          List.replicate 1 downIdleIn)).getD 2 downOut0).sourceLast = true) ∧
    (((downOuts 8 3 false true 0
        (List.replicate 3 (downFeedIn [4, 5, 6]) ++
          List.replicate 1 downIdleIn)).getD 3 downOut0).sourceStb = false) := by
  have h := c4_down_converter 8 3 1 false [4, 5, 6]
    (downOuts 8 3 false true 0 (List.replicate 3 (downFeedIn [4, 5, 6]) ++
      List.replicate 1 downIdleIn)) (by omega) rfl
  have h2 := h.1 2 (by omega)
  exact ⟨h2.1, by simpa using h2.2.2.1, h.2.1 3 (by omega)⟩

/-! ### Round trip: `_UpConverter` into `_DownConverter` (C5)

The composition wires the up-converter's source into the down-converter's
sink (`stb`, `last`, `eop`, `data` forward; `ack` backward), a producer that
offers the head of a pending word list into the up-converter's sink, and an
always-ready consumer on the down-converter's source.  The up-converter's
source outputs fed to the down-converter are its registers
(`strobe_all`, `eop`, `data`) — equal to `upComb`'s source outputs for every
input, see `rt_wiring` — so the combinational chain
`down.sink.ack → up.source.ack → up.sink.ack` is acyclic. -/

structure RtState where
  up : UpState
  mux : Nat
deriving Repr, DecidableEq

def rtReset (ratio : Nat) : RtState := ⟨upReset ratio, 0⟩

/-- One cycle of the composition: returns the word delivered to the consumer
this cycle (if any), the next state, and the producer's remaining words. -/
def rtStep (nbits ratio : Nat) (reverse : Bool) (s : RtState)
    (pending : List Nat) : Option Nat × RtState × List Nat :=
  let downIn : DownIn := ⟨s.up.strobe_all, true, s.up.eop, s.up.data, true⟩
  let downO := downComb nbits ratio reverse false s.mux downIn
  let upIn : UpIn := ⟨!pending.isEmpty, false, pending.headD 0, downO.sinkAck⟩
  let upO := upComb nbits ratio reverse false s.up upIn
  let out := if downO.sourceStb then some downO.sourceData else none
  (out,
   ⟨upStep nbits ratio reverse false s.up upIn, downStep ratio s.mux downIn⟩,
   if upIn.stb && upO.sinkAck then pending.tail else pending)

/-- The down-converter's sink inputs used in `rtStep` are exactly the
up-converter's combinational source outputs, for every up-converter input. -/
theorem rt_wiring (nbits ratio : Nat) (reverse : Bool) (s : RtState) (i : UpIn) :
    (upComb nbits ratio reverse false s.up i).sourceStb = s.up.strobe_all ∧
    (upComb nbits ratio reverse false s.up i).sourceLast = true ∧
    (upComb nbits ratio reverse false s.up i).sourceEop = s.up.eop ∧
    (upComb nbits ratio reverse false s.up i).sourceData = s.up.data :=
  ⟨rfl, rfl, rfl, rfl⟩

/-- Run the composition for `fuel` cycles: collected consumer words, final
state, remaining producer words. -/
def rtExec (nbits ratio : Nat) (reverse : Bool) :
    RtState → List Nat → Nat → List Nat × RtState × List Nat
  | s, pending, 0 => ([], s, pending)
  | s, pending, n + 1 =>
    let r1 := rtStep nbits ratio reverse s pending
    let r2 := rtExec nbits ratio reverse r1.2.1 r1.2.2 n
    (r1.1.toList ++ r2.1, r2.2)

theorem rtExec_add (nbits ratio : Nat) (reverse : Bool) (b : Nat) :
    ∀ (a : Nat) (s : RtState) (pending : List Nat),
      rtExec nbits ratio reverse s pending (a + b)
        = ((rtExec nbits ratio reverse s pending a).1 ++
            (rtExec nbits ratio reverse
              (rtExec nbits ratio reverse s pending a).2.1
              (rtExec nbits ratio reverse s pending a).2.2 b).1,
           (rtExec nbits ratio reverse
              (rtExec nbits ratio reverse s pending a).2.1
              (rtExec nbits ratio reverse s pending a).2.2 b).2) := by
  intro a
  induction a with
  | zero =>
    intro s pending
    simp [rtExec]
  | succ a ih =>
    intro s pending
    rw [show a + 1 + b = (a + b) + 1 from by omega]
    simp only [rtExec]
    rw [ih]
    simp [List.append_assoc]

/-- Loading a word while no group is pending: the word enters its slot, the
slot counter advances (wrapping with `strobe_all` raised on the group's last
slot), nothing is emitted. -/
theorem rtStep_load (nbits ratio : Nat) (reverse : Bool) (hr : 2 ≤ ratio)
    (j : Nat) (d : List Nat) (x : Nat) (rest : List Nat) (hj : j < ratio) :
    rtStep nbits ratio reverse ⟨⟨j, false, d, false, 0⟩, 0⟩ (x :: rest)
      = (none,
         ⟨⟨if j = ratio - 1 then 0 else j + 1, j == ratio - 1,
           d.set (slotIndex ratio reverse j) (x % 2 ^ nbits), false, 0⟩, 0⟩,
         rest) := by
  have hbeq0 : ((0 : Nat) == ratio - 1) = false := by
    simp only [beq_eq_false_iff_ne, ne_eq]
    omega
  simp only [rtStep, downComb, downStep, upComb, upStep, hbeq0]
  simp [hj]
  by_cases hc : j = ratio - 1 <;> simp [hc]

/-- An emission cycle before the last sub-word: the current slot is
delivered, `mux` advances, nothing else changes and no word is accepted. -/
theorem rtStep_emit (nbits ratio : Nat) (reverse : Bool)
    (d : List Nat) (mux : Nat) (pending : List Nat) (hm : mux < ratio - 1) :
    rtStep nbits ratio reverse ⟨⟨0, true, d, false, 0⟩, mux⟩ pending
      = (some ((d.getD (slotIndex ratio reverse mux) 0) % 2 ^ nbits),
         ⟨⟨0, true, d, false, 0⟩, mux + 1⟩, pending) := by
  have hbeq : (mux == ratio - 1) = false := by
    simp only [beq_eq_false_iff_ne, ne_eq]
    omega
  have hmr : mux < ratio := by omega
  simp only [rtStep, downComb, downStep, upComb, upStep, hbeq]
  simp [hmr]

/-- The last emission cycle with no further producer word: the final slot is
delivered, the group is retired (`strobe_all` cleared), `mux` wraps. -/
theorem rtStep_emit_last_nil (nbits ratio : Nat) (reverse : Bool)
    (hr : 1 ≤ ratio) (d : List Nat) :
    rtStep nbits ratio reverse ⟨⟨0, true, d, false, 0⟩, ratio - 1⟩ []
      = (some ((d.getD (slotIndex ratio reverse (ratio - 1)) 0) % 2 ^ nbits),
         ⟨⟨0, false, d, false, 0⟩, 0⟩, []) := by
  have hbeq : (ratio - 1 == ratio - 1) = true := by simp
  have hmr : ratio - 1 < ratio := by omega
  simp only [rtStep, downComb, downStep, upComb, upStep, hbeq]
  simp [hmr]

/-- The last emission cycle with a producer word available: the final slot is
delivered and the next group's first word is loaded in the same cycle. -/
theorem rtStep_emit_last_cons (nbits ratio : Nat) (reverse : Bool)
    (hr : 2 ≤ ratio) (d : List Nat) (x : Nat) (rest : List Nat) :
    rtStep nbits ratio reverse ⟨⟨0, true, d, false, 0⟩, ratio - 1⟩ (x :: rest)
      = (some ((d.getD (slotIndex ratio reverse (ratio - 1)) 0) % 2 ^ nbits),
         ⟨⟨1, false, d.set (slotIndex ratio reverse 0) (x % 2 ^ nbits),
           false, 0⟩, 0⟩, rest) := by
  have hbeq : (ratio - 1 == ratio - 1) = true := by simp
  have hbeq0 : ((0 : Nat) == ratio - 1) = false := by
    simp only [beq_eq_false_iff_ne, ne_eq]
    omega
  have hmr : ratio - 1 < ratio := by omega
  have h0r : 0 < ratio := by omega
  simp only [rtStep, downComb, downStep, upComb, upStep, hbeq, hbeq0]
  simp [hmr, h0r]

/-- An idle cycle: no pending group, no producer word — nothing happens. -/
theorem rtStep_idle (nbits ratio : Nat) (reverse : Bool) (d : List Nat)
    (j : Nat) :
    rtStep nbits ratio reverse ⟨⟨j, false, d, false, 0⟩, 0⟩ []
      = (none, ⟨⟨j, false, d, false, 0⟩, 0⟩, []) := by
  simp [rtStep, downComb, downStep, upComb, upStep]

/-- Sequentially pack words into the wide register's slots starting at
sub-word `j`, exactly as the up-converter's data path writes them. -/
def packAll (nbits ratio : Nat) (reverse : Bool) :
    List Nat → Nat → List Nat → List Nat
  | d, _, [] => d
  | d, j, x :: xs =>
    packAll nbits ratio reverse
      (d.set (slotIndex ratio reverse j) (x % 2 ^ nbits)) (j + 1) xs

/-- The sub-words the down-converter emits from wide word `d` starting at
sub-word `mux`, for `n` cycles. -/
def unpackFrom (nbits ratio : Nat) (reverse : Bool) (d : List Nat) :
    Nat → Nat → List Nat
  | _, 0 => []
  | mux, n + 1 =>
    ((d.getD (slotIndex ratio reverse mux) 0) % 2 ^ nbits) ::
      unpackFrom nbits ratio reverse d (mux + 1) n

/-- All `ratio` sub-words of wide word `d`, in emission order. -/
def unpackAll (nbits ratio : Nat) (reverse : Bool) (d : List Nat) : List Nat :=
  unpackFrom nbits ratio reverse d 0 ratio

theorem rtExec_succ (nbits ratio : Nat) (reverse : Bool) (s : RtState)
    (pending : List Nat) (n : Nat) :
    rtExec nbits ratio reverse s pending (n + 1)
      = ((rtStep nbits ratio reverse s pending).1.toList ++
          (rtExec nbits ratio reverse
            (rtStep nbits ratio reverse s pending).2.1
            (rtStep nbits ratio reverse s pending).2.2 n).1,
         (rtExec nbits ratio reverse
            (rtStep nbits ratio reverse s pending).2.1
            (rtStep nbits ratio reverse s pending).2.2 n).2) := rfl

/-- Running the load phase: with no group pending, the next `g.length`
producer words (filling slots `j .. ratio-1`) are absorbed with nothing
emitted, ending with the packed group pending. -/
theorem rt_load (nbits ratio : Nat) (reverse : Bool) (hr : 2 ≤ ratio) :
    ∀ (g : List Nat) (j : Nat) (d : List Nat) (rest : List Nat),
      g ≠ [] → j + g.length = ratio →
      rtExec nbits ratio reverse ⟨⟨j, false, d, false, 0⟩, 0⟩ (g ++ rest)
          g.length
        = ([], ⟨⟨0, true, packAll nbits ratio reverse d j g, false, 0⟩, 0⟩,
           rest) := by
  intro g
  induction g with
  | nil => intro j d rest hne _; exact absurd rfl hne
  | cons x g ih =>
    intro j d rest _ hj
    cases g with
    | nil =>
      have hj' : j = ratio - 1 := by
        simp only [List.length_cons, List.length_nil] at hj
        omega
      have hjlt : j < ratio := by omega
      simp only [List.length_cons, List.length_nil, List.cons_append,
        List.nil_append, rtExec]
      rw [rtStep_load nbits ratio reverse hr j d x rest hjlt]
      simp [rtExec, packAll, hj']
    | cons y g2 =>
      have hjlt : j < ratio := by
        simp only [List.length_cons] at hj
        omega
      have hjne : j ≠ ratio - 1 := by
        simp only [List.length_cons] at hj
        omega
      rw [show (x :: y :: g2).length = (y :: g2).length + 1 from rfl,
        rtExec_succ, List.cons_append]
      rw [rtStep_load nbits ratio reverse hr j d x ((y :: g2) ++ rest) hjlt]
      simp only [if_neg hjne, beq_eq_false_iff_ne.mpr hjne]
      rw [ih (j + 1) (d.set (slotIndex ratio reverse j) (x % 2 ^ nbits))
        rest (List.cons_ne_nil _ _)
        (by simp only [List.length_cons] at hj ⊢; omega)]
      simp [packAll]

/-- Running idle cycles: nothing is emitted and nothing changes. -/
theorem rt_idle (nbits ratio : Nat) (reverse : Bool) (d : List Nat) (j : Nat) :
    ∀ n, rtExec nbits ratio reverse ⟨⟨j, false, d, false, 0⟩, 0⟩ [] n
      = ([], ⟨⟨j, false, d, false, 0⟩, 0⟩, []) := by
  intro n
  induction n with
  | zero => rfl
  | succ n ih =>
    simp only [rtExec]
    rw [rtStep_idle]
    simp [ih]

/-- Emitting the pending group with no further producer words: the group's
remaining sub-words come out in order and the machine goes idle. -/
theorem rt_emit_nil (nbits ratio : Nat) (reverse : Bool) (hr : 2 ≤ ratio)
    (d : List Nat) :
    ∀ (n mux : Nat), mux + n = ratio → 0 < n →
      rtExec nbits ratio reverse ⟨⟨0, true, d, false, 0⟩, mux⟩ [] n
        = (unpackFrom nbits ratio reverse d mux n,
           ⟨⟨0, false, d, false, 0⟩, 0⟩, []) := by
  intro n
  induction n with
  | zero => intro mux _ h; exact absurd h (by omega)
  | succ n ih =>
    intro mux hm _
    rcases Nat.eq_zero_or_pos n with hn | hn
    · subst hn
      have hmx : mux = ratio - 1 := by omega
      subst hmx
      simp only [rtExec]
      rw [rtStep_emit_last_nil nbits ratio reverse (by omega) d]
      simp [rtExec, unpackFrom]
    · have hmlt : mux < ratio - 1 := by omega
      simp only [rtExec]
      rw [rtStep_emit nbits ratio reverse d mux [] hmlt]
      rw [ih (mux + 1) (by omega) hn]
      simp [unpackFrom]

/-- Emitting the pending group while the producer offers the next group's
first word: the group's remaining sub-words come out in order, and on the
final emission cycle the next word is absorbed into slot 0. -/
theorem rt_emit_cons (nbits ratio : Nat) (reverse : Bool) (hr : 2 ≤ ratio)
    (d : List Nat) (x : Nat) (rest : List Nat) :
    ∀ (n mux : Nat), mux + n = ratio → 0 < n →
      rtExec nbits ratio reverse ⟨⟨0, true, d, false, 0⟩, mux⟩ (x :: rest) n
        = (unpackFrom nbits ratio reverse d mux n,
           ⟨⟨1, false, d.set (slotIndex ratio reverse 0) (x % 2 ^ nbits),
             false, 0⟩, 0⟩, rest) := by
  intro n
  induction n with
  | zero => intro mux _ h; exact absurd h (by omega)
  | succ n ih =>
    intro mux hm _
    rcases Nat.eq_zero_or_pos n with hn | hn
    · subst hn
      have hmx : mux = ratio - 1 := by omega
      subst hmx
      simp only [rtExec]
      rw [rtStep_emit_last_cons nbits ratio reverse hr d x rest]
      simp [rtExec, unpackFrom]
    · have hmlt : mux < ratio - 1 := by omega
      simp only [rtExec]
      rw [rtStep_emit nbits ratio reverse d mux (x :: rest) hmlt]
      rw [ih (mux + 1) (by omega) hn]
      simp [unpackFrom]

theorem slotIndex_lt (ratio : Nat) (reverse : Bool) (i : Nat)
    (h0 : 0 < ratio) (hi : i < ratio) : slotIndex ratio reverse i < ratio := by
  cases reverse <;> simp [slotIndex] <;> omega

theorem slotIndex_ne (ratio : Nat) (reverse : Bool) (a b : Nat)
    (ha : a < ratio) (hb : b < ratio) (hne : a ≠ b) :
    slotIndex ratio reverse a ≠ slotIndex ratio reverse b := by
  cases reverse <;> simp [slotIndex] <;> omega

theorem packAll_length (nbits ratio : Nat) (reverse : Bool) :
    ∀ (g : List Nat) (j : Nat) (d : List Nat),
      (packAll nbits ratio reverse d j g).length = d.length := by
  intro g
  induction g with
  | nil => intro j d; rfl
  | cons x xs ih =>
    intro j d
    simp only [packAll]
    rw [ih]
    exact List.length_set d _ _

/-- Slots below `j` are untouched by packing from `j` on. -/
theorem packAll_getD_frozen (nbits ratio : Nat) (reverse : Bool) :
    ∀ (g : List Nat) (j : Nat) (d : List Nat) (t : Nat),
      t < j → j + g.length ≤ ratio →
      (packAll nbits ratio reverse d j g).getD (slotIndex ratio reverse t) 0
        = d.getD (slotIndex ratio reverse t) 0 := by
  intro g
  induction g with
  | nil => intros; rfl
  | cons x xs ih =>
    intro j d t ht hb
    simp only [List.length_cons] at hb
    simp only [packAll]
    rw [ih (j + 1) _ t (by omega) (by omega)]
    rw [List.getD_eq_getElem?_getD, List.getD_eq_getElem?_getD]
    rw [List.getElem?_set_ne
      (slotIndex_ne ratio reverse j t (by omega) (by omega) (by omega))]

/-- Packing records each word (truncated to the wire width) in its slot. -/
theorem packAll_getD (nbits ratio : Nat) (reverse : Bool) :
    ∀ (g : List Nat) (j : Nat) (d : List Nat) (t : Nat),
      j ≤ t → t < ratio → j + g.length = ratio → d.length = ratio →
      (packAll nbits ratio reverse d j g).getD (slotIndex ratio reverse t) 0
        = (g.getD (t - j) 0) % 2 ^ nbits := by
  intro g
  induction g with
  | nil =>
    intro j d t hjt ht hlen _
    simp only [List.length_nil] at hlen
    omega
  | cons x xs ih =>
    intro j d t hjt ht hlen hd
    simp only [List.length_cons] at hlen
    simp only [packAll]
    rcases Nat.eq_or_lt_of_le hjt with rfl | hlt
    · rw [packAll_getD_frozen nbits ratio reverse xs (j + 1) _ j (by omega)
        (by omega)]
      rw [List.getD_eq_getElem?_getD]
      rw [List.getElem?_set_eq_of_lt _
        (by rw [hd]; exact slotIndex_lt ratio reverse j (by omega) (by omega))]
      simp
    · rw [ih (j + 1) _ t (by omega) ht (by omega)
        (by rw [List.length_set]; exact hd)]
      rw [show t - j = (t - (j + 1)) + 1 from by omega]
      simp [List.getD_cons_succ]

/-- Unpacking a packed group returns the group's words (truncated to the
wire width), in their original order — for either reversal flag. -/
theorem unpackFrom_packAll (nbits ratio : Nat) (reverse : Bool)
    (g d : List Nat) (hg : g.length = ratio) (hd : d.length = ratio) :
    ∀ (n t : Nat), t + n = ratio →
      unpackFrom nbits ratio reverse (packAll nbits ratio reverse d 0 g) t n
        = (g.drop t).map (fun x => x % 2 ^ nbits) := by
  intro n
  induction n with
  | zero =>
    intro t ht
    rw [show t = g.length from by omega]
    simp [unpackFrom]
  | succ n ih =>
    intro t ht
    have htl : t < ratio := by omega
    simp only [unpackFrom]
    rw [packAll_getD nbits ratio reverse g 0 d t (by omega) htl
      (by simpa using hg) hd]
    rw [Nat.mod_mod_of_dvd _ dvd_rfl]
    rw [ih (t + 1) (by omega)]
    simp only [Nat.sub_zero]
    rw [List.getD_eq_getElem _ _ (show t < g.length from by omega)]
    rw [List.drop_eq_getElem_cons (show t < g.length from by omega),
      List.map_cons]

/-- One full group cycle: the pending group's `ratio` sub-words are emitted
while the next group is absorbed, in `ratio + (ratio - 1)` cycles. -/
theorem rt_group (nbits ratio : Nat) (reverse : Bool) (hr : 2 ≤ ratio)
    (d g rest : List Nat) (hg : g.length = ratio) :
    rtExec nbits ratio reverse ⟨⟨0, true, d, false, 0⟩, 0⟩ (g ++ rest)
        (ratio + (ratio - 1))
      = (unpackAll nbits ratio reverse d,
         ⟨⟨0, true, packAll nbits ratio reverse d 0 g, false, 0⟩, 0⟩,
         rest) := by
  obtain ⟨x, g', rfl⟩ : ∃ x g', g = x :: g' := by
    cases g with
    | nil => simp at hg; omega
    | cons x g' => exact ⟨x, g', rfl⟩
  have hg' : g'.length = ratio - 1 := by
    simp only [List.length_cons] at hg
    omega
  have hg'ne : g' ≠ [] := by
    intro hc
    rw [hc] at hg'
    simp at hg'
    omega
  rw [rtExec_add]
  rw [show (x :: g') ++ rest = x :: (g' ++ rest) from rfl]
  rw [rt_emit_cons nbits ratio reverse hr d x (g' ++ rest) ratio 0
    (by omega) (by omega)]
  dsimp only
  rw [show ratio - 1 = g'.length from hg'.symm]
  rw [rt_load nbits ratio reverse hr g' 1 _ rest hg'ne (by omega)]
  simp [unpackAll, packAll]

/-- Emitting `k` pending-and-following groups: every word of `ps` (in groups
of `ratio`) comes out in order after the currently packed group. -/
theorem rt_groups (nbits ratio : Nat) (reverse : Bool) (hr : 2 ≤ ratio) :
    ∀ (k : Nat) (ps d : List Nat) (extra : Nat),
      ps.length = k * ratio → d.length = ratio →
      (rtExec nbits ratio reverse ⟨⟨0, true, d, false, 0⟩, 0⟩ ps
        (k * (ratio + (ratio - 1)) + ratio + extra)).1
        = unpackAll nbits ratio reverse d ++
            ps.map (fun x => x % 2 ^ nbits) := by
  intro k
  induction k with
  | zero =>
    intro ps d extra hps hd
    have hps0 : ps = [] := by
      rw [Nat.zero_mul] at hps
      exact List.length_eq_zero.mp hps
    subst hps0
    rw [show 0 * (ratio + (ratio - 1)) + ratio + extra = ratio + extra from by
      rw [Nat.zero_mul]; omega]
    rw [rtExec_add]
    rw [rt_emit_nil nbits ratio reverse hr d ratio 0 (by omega) (by omega)]
    dsimp only
    rw [rt_idle nbits ratio reverse d 0 extra]
    simp [unpackAll]
  | succ k ih =>
    intro ps d extra hps hd
    rw [Nat.succ_mul] at hps
    have hratio_le : ratio ≤ ps.length := by omega
    obtain ⟨g, rest, rfl, hg, hrest⟩ :
        ∃ g rest, ps = g ++ rest ∧ g.length = ratio ∧
          rest.length = k * ratio := by
      refine ⟨ps.take ratio, ps.drop ratio,
        (List.take_append_drop _ _).symm, ?_, ?_⟩
      · rw [List.length_take, Nat.min_eq_left hratio_le]
      · rw [List.length_drop]
        omega
    rw [show (k + 1) * (ratio + (ratio - 1)) + ratio + extra
        = (ratio + (ratio - 1)) + (k * (ratio + (ratio - 1)) + ratio + extra)
        from by rw [Nat.succ_mul]; omega]
    rw [rtExec_add]
    rw [rt_group nbits ratio reverse hr d g rest hg]
    dsimp only
    rw [ih rest _ extra hrest (by rw [packAll_length]; exact hd)]
    rw [show unpackAll nbits ratio reverse (packAll nbits ratio reverse d 0 g)
        = g.map (fun x => x % 2 ^ nbits) from by
      rw [unpackAll, unpackFrom_packAll nbits ratio reverse g d hg hd ratio 0
        (by omega)]
      simp]
    simp [List.map_append]

/-- C5: for every ratio `r ≥ 2` and either reversal flag, composing the
up-converter with the down-converter (same flag, always-ready consumer) on a
producer sequence of in-range words with no early `eop` (groups of exactly
`r` words, `eop` never asserted) reproduces the original sequence unchanged
— same values, same order, none lost or duplicated. -/
theorem c5_round_trip (nbits ratio : Nat) (reverse : Bool) (k extra : Nat)
    (ps : List Nat)
    (hr : 2 ≤ ratio) (hlen : ps.length = k * ratio)
    (hwf : ∀ x ∈ ps, x < 2 ^ nbits) :
    (rtExec nbits ratio reverse (rtReset ratio) ps
      (k * (ratio + (ratio - 1)) + ratio + extra)).1 = ps := by
  cases k with
  | zero =>
    have hps0 : ps = [] := by
      rw [Nat.zero_mul] at hlen
      exact List.length_eq_zero.mp hlen
    subst hps0
    rw [show rtReset ratio
        = ⟨⟨0, false, List.replicate ratio 0, false, 0⟩, 0⟩ from rfl]
    rw [rt_idle]
  | succ k =>
    rw [Nat.succ_mul] at hlen
    have hratio_le : ratio ≤ ps.length := by omega
    obtain ⟨g, rest, rfl, hg, hrest⟩ :
        ∃ g rest, ps = g ++ rest ∧ g.length = ratio ∧
          rest.length = k * ratio := by
      refine ⟨ps.take ratio, ps.drop ratio,
        (List.take_append_drop _ _).symm, ?_, ?_⟩
      · rw [List.length_take, Nat.min_eq_left hratio_le]
      · rw [List.length_drop]
        omega
    have hgne : g ≠ [] := by
      intro hc
      rw [hc] at hg
      simp at hg
      omega
    rw [show (k + 1) * (ratio + (ratio - 1)) + ratio + extra
        = ratio + (k * (ratio + (ratio - 1)) + ratio + (extra + (ratio - 1)))
        from by rw [Nat.succ_mul]; omega]
    rw [rtExec_add]
    rw [show rtReset ratio
        = ⟨⟨0, false, List.replicate ratio 0, false, 0⟩, 0⟩ from rfl]
    have hload := rt_load nbits ratio reverse hr g 0 (List.replicate ratio 0)
      rest hgne (by omega)
    rw [hg] at hload
    rw [hload]
    dsimp only
    rw [rt_groups nbits ratio reverse hr k rest _ (extra + (ratio - 1)) hrest
      (by rw [packAll_length]; simp)]
    rw [show unpackAll nbits ratio reverse
          (packAll nbits ratio reverse (List.replicate ratio 0) 0 g)
        = g.map (fun x => x % 2 ^ nbits) from by
      rw [unpackAll, unpackFrom_packAll nbits ratio reverse g
        (List.replicate ratio 0) hg (by simp) ratio 0 (by omega)]
      simp]
    rw [List.nil_append, ← List.map_append]
    have hid : ∀ x ∈ g ++ rest, x % 2 ^ nbits = x :=
      fun x hx => Nat.mod_eq_of_lt (hwf x hx)
    rw [List.map_congr_left hid]
    exact List.map_id _

/-- Witness for C5 at `ratio = 2`, 4-bit words `[1, 2, 3, 4]`, 8 cycles. -/
theorem c5_round_trip_witness :
    (rtExec 4 2 false (rtReset 2) [1, 2, 3, 4] 8).1 = [1, 2, 3, 4] := by
  have h := c5_round_trip 4 2 false 2 0 [1, 2, 3, 4] (by omega) (by decide)
    (by decide)
  simpa using h
